import Mathlib

/-!
Verification of the agglomerative block-merging engine of
`src/generator/nbt/agg.py` (repository `minecraft-video-player`).

The Python source is shallowly embedded as follows.

* `Color` is the `Tuple[int, int, int]` alias; an RLE entry is
  `Tuple[Color, int]` (the run length is a Python `int`, hence `Int`).
* A Python `Counter`/`dict` mapping colors to positive counts is embedded as a
  `Multiset Color`: the multiplicity of `c` is the stored count of `c`.  The
  source only ever increments a single key (`counter[rle[i][0]] += 1`, multiset
  cons), sums two counters (`Counter(left); update(right)`, multiset add) and
  takes `max(counter.values())` (`maxCount` below, `0` on the empty counter).
* A `Block` object's immutable payload (`start`, `end`, `counter`, `total`,
  `inherited`) is a `BlockCore`; the fields mutated by the driver (`alive`,
  `left`, `right`) live in an arena `Node`.  Python object references become
  arena indices; `left`/`right` are `Option` indices.
* `heapq` with tuples `(-gain, merge_id, left, right)` is embedded as a list of
  candidates from which `popMin` extracts the minimum under the lexicographic
  key `(negGain, id)`.  Since every pushed `merge_id` is fresh, the key is
  injective on every reachable heap, so min-extraction is exactly the observable
  behaviour of the binary heap (the `Block` components of the tuples are never
  compared).
* The `while` loops are embedded with explicit fuel; every run is given fuel
  strictly larger than the measure `heap length + 2 * live count`, which is
  proved to decrease at every iteration, so the fuel never runs out on a
  reachable state (`ExitReason.fuelOut` is proved unreachable).
-/

namespace MVP

abbrev Color := Int × Int × Int

/-- RLE entry `(color, pixel_length)` from the source. -/
abbrev RLE := Color × Int

/-- Value `max(counter.values())` used for `Block.inherited`, `0` if the
counter is empty, as in `max(...) if color_counter else 0`. -/
def maxCount (m : Multiset Color) : ℕ :=
  m.toFinset.sup fun c => m.count c

/-- The immutable payload of a `Block`: `start`, `end` (inclusive indices into
the RLE list), `counter`, `total`, and the `inherited` statistic. -/
structure BlockCore where
  start : ℕ
  endIdx : ℕ
  counter : Multiset Color
  total : ℕ
  inherited : ℕ
  deriving DecidableEq

instance : Inhabited BlockCore := ⟨⟨0, 0, 0, 0, 0⟩⟩

/-- Mirrors `Block.__init__`: stores the range, counter and total, and computes
`inherited = max(color_counter.values()) if color_counter else 0`. -/
def mkBlock (s e : ℕ) (cnt : Multiset Color) (tot : ℕ) : BlockCore :=
  ⟨s, e, cnt, tot, maxCount cnt⟩

/-- Mirrors `merge_blocks`: counter is the sum of the two counters, total the
sum of the totals, range spans `left.start .. right.end`. -/
def merge_blocks (l r : BlockCore) : BlockCore :=
  mkBlock l.start r.endIdx (l.counter + r.counter) (l.total + r.total)

/-- Mirrors `compute_merge_gain`:
`gain = inherited_after_merge - (inherited_left + inherited_right)`. -/
def compute_merge_gain (l r : BlockCore) : ℤ :=
  (maxCount (l.counter + r.counter) : ℤ) - ((l.inherited : ℤ) + (r.inherited : ℤ))

/-- Inner `while` of `build_initial_blocks`:
`while i < n and (cur_total < block_measure_target or start == i)` consuming
`counter[rle[i][0]] += 1; cur_total += 1; i += 1`.  Returns the final
`(i, cur_total, counter)`.  Fuel-indexed; fuel `≥ n - i` is always supplied. -/
def innerLoop (rle : List RLE) (T : ℤ) (start : ℕ) :
    ℕ → ℕ → ℕ → Multiset Color → ℕ × ℕ × Multiset Color
  | 0, i, ct, cnt => (i, ct, cnt)
  | fuel + 1, i, ct, cnt =>
    if h : i < rle.length ∧ ((ct : ℤ) < T ∨ start = i) then
      innerLoop rle T start fuel (i + 1) (ct + 1) ((rle.get ⟨i, h.1⟩).1 ::ₘ cnt)
    else (i, ct, cnt)

/-- Outer `while i < n` of `build_initial_blocks`: one `Block(start, end,
dict(counter), cur_total)` per iteration.  Fuel-indexed; fuel `≥ n - i`. -/
def buildLoop (rle : List RLE) (T : ℤ) : ℕ → ℕ → List BlockCore
  | 0, _ => []
  | fuel + 1, i =>
    if i < rle.length then
      let r := innerLoop rle T i rle.length i 0 0
      mkBlock i (r.1 - 1) r.2.2 r.2.1 :: buildLoop rle T fuel r.1
    else []

/-- Mirrors `build_initial_blocks` (the neighbor links set at the end of that
function are installed by `linkNodes` below). -/
def build_initial_blocks (rle : List RLE) (T : ℤ) : List BlockCore :=
  buildLoop rle T rle.length 0

/-- One arena slot: a `Block` object's payload plus its mutable driver state
(`alive`, `left`, `right`). -/
structure Node where
  core : BlockCore
  alive : Bool
  left : Option ℕ
  right : Option ℕ
  deriving DecidableEq

instance : Inhabited Node := ⟨⟨default, false, none, none⟩⟩

/-- Arena lookup (all accessed indices are in range on reachable states). -/
def nodeAt (a : List Node) (i : ℕ) : Node := a.getD i default

/-- Payload of the block stored at arena index `i`. -/
def coreAt (a : List Node) (i : ℕ) : BlockCore := (nodeAt a i).core

/-- The `# link neighbors` loop at the end of `build_initial_blocks`:
`b.left = blocks[idx-1]` for `idx > 0`, `b.right = blocks[idx+1]` for
`idx < len(blocks) - 1`; all blocks start `alive`. -/
def linkNodes (bs : List BlockCore) : List Node :=
  (List.range bs.length).map fun i =>
    ⟨bs.getD i default, true,
      if i = 0 then none else some (i - 1),
      if i + 1 < bs.length then some (i + 1) else none⟩

/-- One `heapq` entry `(-gain, merge_id, left, right)`. -/
structure Cand where
  negGain : ℤ
  id : ℕ
  l : ℕ
  r : ℕ
  deriving DecidableEq

/-- The lexicographic order on the tuple prefix `(-gain, merge_id)`; since every
`merge_id` is unique this prefix already discriminates any two entries, so the
`Block` components of the Python tuples are never compared. -/
def keyLe (c d : Cand) : Prop :=
  c.negGain < d.negGain ∨ (c.negGain = d.negGain ∧ c.id ≤ d.id)

instance (c d : Cand) : Decidable (keyLe c d) := by unfold keyLe; infer_instance

/-- `heapq.heappop`: extracts the entry with the smallest key, returning it and
the remaining entries (in their original relative order). -/
def popMin : List Cand → Option (Cand × List Cand)
  | [] => none
  | c :: cs =>
    match popMin cs with
    | none => some (c, [])
    | some (m, rest) => if keyLe c m then some (c, cs) else some (m, c :: rest)

/-- Mirrors `push_candidate`: no-op when either side is `None` or not alive,
otherwise pushes `(-compute_merge_gain(left, right), merge_id, left, right)` and
increments `merge_id`.  The state component is `(heap, merge_id)`. -/
def pushCand (a : List Node) (st : List Cand × ℕ) (l r : Option ℕ) :
    List Cand × ℕ :=
  match l, r with
  | some li, some ri =>
    if (nodeAt a li).alive && (nodeAt a ri).alive then
      (st.1 ++ [⟨-(compute_merge_gain (nodeAt a li).core (nodeAt a ri).core),
                 st.2, li, ri⟩],
       st.2 + 1)
    else st
  | _, _ => st

/-- The seeding loop `for b in blocks: if b.right: push_candidate(b, b.right)`
(`push_candidate` itself handles the `None` case). -/
def seedState (a : List Node) : List Cand × ℕ :=
  (List.range a.length).foldl (fun st i => pushCand a st (some i) (nodeAt a i).right)
    ([], 0)

/-- The driver's mutable state: the arena of all `Block`s ever created, the
candidate heap, the next `merge_id`, and `current_blocks_count`. -/
structure MState where
  arena : List Node
  heap : List Cand
  nextId : ℕ
  count : ℤ


/-- The test `max_blocks is None or current_blocks_count <= max_blocks`. -/
def budgetOK (mb : Option ℤ) (count : ℤ) : Bool :=
  match mb with
  | none => true
  | some m => count ≤ m

/-- The popped candidate is discarded when
`(not left.alive) or (not right.alive) or left.right is not right`. -/
def staleAt (a : List Node) (c : Cand) : Prop :=
  (nodeAt a c.l).alive = false ∨ (nodeAt a c.r).alive = false ∨
    (nodeAt a c.l).right ≠ some c.r

instance (a : List Node) (c : Cand) : Decidable (staleAt a c) := by
  unfold staleAt; infer_instance

/-- The statement `if L: L.right = newb` of the driver: update the `right`
pointer of the node `o` refers to, when `o` is not `None`. -/
def setRight (l : List Node) (o : Option ℕ) (v : Option ℕ) : List Node :=
  match o with
  | some j => l.set j { nodeAt l j with right := v }
  | none => l

/-- The statement `if R: R.left = newb` of the driver. -/
def setLeft (l : List Node) (o : Option ℕ) (v : Option ℕ) : List Node :=
  match o with
  | some j => l.set j { nodeAt l j with left := v }
  | none => l

/-- The arena mutations of one accepted merge: append the new
`merge_blocks(left, right)` block (its `left`/`right` set to `L = left.left` and
`R = right.right`), retarget `L.right` and `R.left` to it when those neighbors
exist, and mark `left` and `right` dead. -/
def mergeArena (a : List Node) (c : Cand) : List Node :=
  let ln := nodeAt a c.l
  let rn := nodeAt a c.r
  let newIdx := a.length
  let a1 := a ++ [⟨merge_blocks ln.core rn.core, true, ln.left, rn.right⟩]
  let a2 := setRight a1 ln.left (some newIdx)
  let a3 := setLeft a2 rn.right (some newIdx)
  let a4 := a3.set c.l { nodeAt a3 c.l with alive := false }
  a4.set c.r { nodeAt a4 c.r with alive := false }

/-- The merge body of the driver loop: mutate the arena via `mergeArena`, then
push the candidates `(L, newb)` and `(newb, R)`, and decrement the live count. -/
def doMerge (s : MState) (c : Cand) (rest : List Cand) : MState :=
  let a5 := mergeArena s.arena c
  let st1 := pushCand a5 (rest, s.nextId) (nodeAt s.arena c.l).left (some s.arena.length)
  let st2 := pushCand a5 st1 (some s.arena.length) (nodeAt s.arena c.r).right
  ⟨a5, st2.1, st2.2, s.count - 1⟩

/-- Exit cause of the driver loop (instrumentation; `mergeLoopR` below tags the
result with it, `mergeLoop` is its first projection). -/
inductive ExitReason
  | fuelOut
  | emptyHeap
  | breakGain
  | breakBudget
  deriving DecidableEq

/-- The driver loop `while heap:` of `agglomerative_merge`, instrumented with
the cause of its exit.  One iteration: pop the minimal candidate; `continue` if
stale; `break` if `gain <= 0 and (max_blocks is None or count <= max_blocks)`;
otherwise merge, then `break` if `max_blocks is not None and count <=
max_blocks`. -/
def mergeLoopR (mb : Option ℤ) : ℕ → MState → MState × ExitReason
  | 0, s => (s, ExitReason.fuelOut)
  | fuel + 1, s =>
    match popMin s.heap with
    | none => (s, ExitReason.emptyHeap)
    | some (c, rest) =>
      if staleAt s.arena c then
        mergeLoopR mb fuel { s with heap := rest }
      else if (-c.negGain ≤ 0) ∧ budgetOK mb s.count = true then
        ({ s with heap := rest }, ExitReason.breakGain)
      else
        let s' := doMerge s c rest
        if mb.isSome ∧ budgetOK mb s'.count = true then (s', ExitReason.breakBudget)
        else mergeLoopR mb fuel s'

/-- The driver loop, state only. -/
def mergeLoop (mb : Option ℤ) (fuel : ℕ) (s : MState) : MState :=
  (mergeLoopR mb fuel s).1

/-- The `while node.left: node = node.left` walk of the collection phase. -/
def walkLeft (a : List Node) : ℕ → ℕ → ℕ
  | 0, i => i
  | fuel + 1, i =>
    match (nodeAt a i).left with
    | none => i
    | some j => walkLeft a fuel j

/-- The `while node: final.append(node); node = node.right` walk. -/
def walkRight (a : List Node) : ℕ → Option ℕ → List BlockCore
  | _, none => []
  | 0, some _ => []
  | fuel + 1, some i => (nodeAt a i).core :: walkRight a fuel (nodeAt a i).right

/-- The collection phase of `agglomerative_merge`.  Both searches range over
`blocks`, i.e. over the **initial** blocks only (arena indices `< k0`): first
`for b in blocks: if b.alive and b.left is None`, then the fallback
`for b in blocks: if b.alive` followed by the left walk; finally the right walk
from the found node.  When no initial block is alive, `node` stays `None` and
the empty list is returned. -/
def collect (a : List Node) (k0 : ℕ) : List BlockCore :=
  let first := (List.range k0).find? fun i =>
    (nodeAt a i).alive && decide ((nodeAt a i).left = none)
  let anchor : Option ℕ :=
    match first with
    | some i => some i
    | none =>
      match (List.range k0).find? fun i => (nodeAt a i).alive with
      | some i => some (walkLeft a a.length i)
      | none => none
  match anchor with
  | some i => walkRight a (a.length + 1) (some i)
  | none => []

/-- The initial driver state: linked initial blocks, seeded heap,
`current_blocks_count = len(blocks)`. -/
def initState (rle : List RLE) (T : ℤ) : MState :=
  let a0 := linkNodes (build_initial_blocks rle T)
  let sd := seedState a0
  ⟨a0, sd.1, sd.2, (a0.length : ℤ)⟩

/-- Fuel handed to the driver loop; strictly dominates the loop measure
`heap length + 2 * live count` of the initial state. -/
def loopFuel (s : MState) : ℕ :=
  s.heap.length + 2 * s.arena.length + 1

/-- Mirrors `agglomerative_merge(rle, block_measure_target, max_blocks)`:
build the initial blocks (empty input yields `[]`), seed the heap, run the
greedy loop, collect the result.  Returns the payloads of the collected
blocks. -/
def agglomerative_merge (rle : List RLE) (T : ℤ) (mb : Option ℤ) :
    List BlockCore :=
  let blocks := build_initial_blocks rle T
  if blocks.isEmpty then []
  else
    let s0 := initState rle T
    let sF := mergeLoop mb (loopFuel s0) s0
    collect sF.arena s0.arena.length

/-! ### Order properties of the heap key -/

theorem keyLe_refl (c : Cand) : keyLe c c := Or.inr ⟨rfl, le_refl _⟩

theorem keyLe_trans {c d e : Cand} (h1 : keyLe c d) (h2 : keyLe d e) : keyLe c e := by
  rcases h1 with h1 | ⟨h1, h1'⟩ <;> rcases h2 with h2 | ⟨h2, h2'⟩
  · exact Or.inl (h1.trans h2)
  · exact Or.inl (h2 ▸ h1)
  · exact Or.inl (h1 ▸ h2)
  · exact Or.inr ⟨h1.trans h2, h1'.trans h2'⟩

theorem keyLe_total (c d : Cand) : keyLe c d ∨ keyLe d c := by
  rcases lt_trichotomy c.negGain d.negGain with h | h | h
  · exact Or.inl (Or.inl h)
  · rcases Nat.le_total c.id d.id with h' | h'
    · exact Or.inl (Or.inr ⟨h, h'⟩)
    · exact Or.inr (Or.inr ⟨h.symm, h'⟩)
  · exact Or.inr (Or.inl h)

theorem keyLe_antisymm {c d : Cand} (h1 : keyLe c d) (h2 : keyLe d c) :
    c.negGain = d.negGain ∧ c.id = d.id := by
  rcases h1 with h1 | ⟨h1, h1'⟩ <;> rcases h2 with h2 | ⟨h2, h2'⟩
  · exact absurd (h1.trans h2) (lt_irrefl _)
  · exact absurd h1 (h2 ▸ lt_irrefl _)
  · exact absurd h2 (h1 ▸ lt_irrefl _)
  · exact ⟨h1, le_antisymm h1' h2'⟩

/-! ### Properties of `popMin` -/

theorem popMin_eq_none {h : List Cand} : popMin h = none ↔ h = [] := by
  cases h with
  | nil => simp [popMin]
  | cons c cs =>
    simp only [popMin]
    cases hcs : popMin cs with
    | none => simp
    | some p =>
      obtain ⟨m, rest⟩ := p
      by_cases hk : keyLe c m <;> simp [hk]

theorem popMin_split {h : List Cand} {c : Cand} {rest : List Cand}
    (hp : popMin h = some (c, rest)) :
    ∃ l1 l2, h = l1 ++ c :: l2 ∧ rest = l1 ++ l2 := by
  induction h generalizing c rest with
  | nil => simp [popMin] at hp
  | cons a as ih =>
    simp only [popMin] at hp
    cases has : popMin as with
    | none =>
      rw [has] at hp
      have : as = [] := popMin_eq_none.mp has
      simp only [Option.some.injEq, Prod.mk.injEq] at hp
      exact ⟨[], [], by simp [← hp.1, this], by simp [← hp.2]⟩
    | some p =>
      obtain ⟨m, r'⟩ := p
      rw [has] at hp
      by_cases hk : keyLe a m
      · simp only [hk, if_pos, Option.some.injEq, Prod.mk.injEq] at hp
        exact ⟨[], as, by simp [← hp.1], by simp [← hp.2]⟩
      · simp only [hk, if_neg, Option.some.injEq, Prod.mk.injEq, not_false_iff] at hp
        obtain ⟨l1, l2, h1, h2⟩ := ih has
        refine ⟨a :: l1, l2, ?_, ?_⟩
        · simp [h1, ← hp.1]
        · simp [← hp.2, h2]

theorem popMin_mem {h : List Cand} {c : Cand} {rest : List Cand}
    (hp : popMin h = some (c, rest)) : c ∈ h := by
  obtain ⟨l1, l2, h1, _⟩ := popMin_split hp
  simp [h1]

theorem popMin_perm {h : List Cand} {c : Cand} {rest : List Cand}
    (hp : popMin h = some (c, rest)) : h.Perm (c :: rest) := by
  obtain ⟨l1, l2, h1, h2⟩ := popMin_split hp
  rw [h1, h2]
  exact List.perm_middle

theorem popMin_length {h : List Cand} {c : Cand} {rest : List Cand}
    (hp : popMin h = some (c, rest)) : h.length = rest.length + 1 := by
  have := (popMin_perm hp).length_eq
  simpa using this

theorem popMin_rest_subset {h : List Cand} {c : Cand} {rest : List Cand}
    (hp : popMin h = some (c, rest)) : ∀ d ∈ rest, d ∈ h := by
  intro d hd
  exact (popMin_perm hp).mem_iff.mpr (List.mem_cons_of_mem _ hd)

theorem popMin_mem_cases {h : List Cand} {c : Cand} {rest : List Cand}
    (hp : popMin h = some (c, rest)) : ∀ d ∈ h, d = c ∨ d ∈ rest := by
  intro d hd
  have := (popMin_perm hp).mem_iff.mp hd
  simpa using this

theorem popMin_min {h : List Cand} {c : Cand} {rest : List Cand}
    (hp : popMin h = some (c, rest)) : ∀ d ∈ h, keyLe c d := by
  induction h generalizing c rest with
  | nil => simp [popMin] at hp
  | cons a as ih =>
    simp only [popMin] at hp
    cases has : popMin as with
    | none =>
      rw [has] at hp
      have : as = [] := popMin_eq_none.mp has
      simp only [Option.some.injEq, Prod.mk.injEq] at hp
      intro d hd
      rw [this] at hd
      simp only [List.mem_singleton] at hd
      rw [hd, ← hp.1]
      exact keyLe_refl a
    | some p =>
      obtain ⟨m, r'⟩ := p
      rw [has] at hp
      by_cases hk : keyLe a m
      · simp only [hk, if_pos, Option.some.injEq, Prod.mk.injEq] at hp
        intro d hd
        rw [← hp.1]
        rcases List.mem_cons.mp hd with hd | hd
        · rw [hd]; exact keyLe_refl a
        · exact keyLe_trans hk (ih has d hd)
      · simp only [hk, if_neg, Option.some.injEq, Prod.mk.injEq, not_false_iff] at hp
        intro d hd
        rw [← hp.1]
        rcases List.mem_cons.mp hd with hd | hd
        · subst hd
          rcases keyLe_total d m with h' | h'
          · exact absurd h' hk
          · exact h'
        · exact ih has d hd

/-! ### Arena access lemmas -/

theorem nodeAt_set_self {a : List Node} {i : ℕ} {x : Node} (h : i < a.length) :
    nodeAt (a.set i x) i = x := by
  simp [nodeAt, List.getD, List.getElem?_set, h]

theorem nodeAt_set_ne {a : List Node} {i j : ℕ} {x : Node} (h : i ≠ j) :
    nodeAt (a.set i x) j = nodeAt a j := by
  simp [nodeAt, List.getD, List.getElem?_set, h]

theorem nodeAt_append_lt {a b : List Node} {i : ℕ} (h : i < a.length) :
    nodeAt (a ++ b) i = nodeAt a i := by
  simp [nodeAt, List.getD, List.getElem?_append_left h]

theorem nodeAt_append_self {a : List Node} {x : Node} :
    nodeAt (a ++ [x]) a.length = x := by
  simp [nodeAt, List.getD, List.getElem?_append_right (le_refl a.length)]

theorem nodeAt_of_lt {a : List Node} {i : ℕ} (h : i < a.length) :
    nodeAt a i = a.get ⟨i, h⟩ := by
  simp [nodeAt, List.getD, List.getElem?_eq_getElem h]

theorem nodeAt_default {a : List Node} {i : ℕ} (h : ¬ i < a.length) :
    nodeAt a i = default := by
  simp [nodeAt, List.getD, List.getElem?_eq_none (le_of_not_lt h)]

theorem nodeAt_default_alive {a : List Node} {i : ℕ} (h : ¬ i < a.length) :
    (nodeAt a i).alive = false := by
  rw [nodeAt_default h]; rfl

/-! ### `maxCount` and nonpositivity of the merge gain -/

theorem count_le_maxCount (m : Multiset Color) (c : Color) :
    m.count c ≤ maxCount m := by
  unfold maxCount
  by_cases h : c ∈ m
  · exact @Finset.le_sup ℕ Color _ _ m.toFinset (fun x => m.count x) c
      (Multiset.mem_toFinset.mpr h)
  · simp [Multiset.count_eq_zero_of_not_mem h]

theorem maxCount_le {m : Multiset Color} {k : ℕ}
    (h : ∀ c ∈ m, m.count c ≤ k) : maxCount m ≤ k := by
  unfold maxCount
  apply Finset.sup_le
  intro c hc
  exact h c (Multiset.mem_toFinset.mp hc)

theorem maxCount_add_le (a b : Multiset Color) :
    maxCount (a + b) ≤ maxCount a + maxCount b := by
  apply maxCount_le
  intro c _
  rw [Multiset.count_add]
  exact Nat.add_le_add (count_le_maxCount a c) (count_le_maxCount b c)

/-- The central arithmetic fact about the engine: because a merged counter is
the pointwise sum of the two parents and the maximum of a sum is at most the sum
of the maxima, `compute_merge_gain` is never positive.  Consequently the driver
only ever merges when forced by `max_blocks`. -/
theorem gain_nonpos {l r : BlockCore}
    (hl : l.inherited = maxCount l.counter) (hr : r.inherited = maxCount r.counter) :
    compute_merge_gain l r ≤ 0 := by
  unfold compute_merge_gain
  rw [hl, hr]
  have := maxCount_add_le l.counter r.counter
  omega

theorem mkBlock_inherited (s e : ℕ) (cnt : Multiset Color) (tot : ℕ) :
    (mkBlock s e cnt tot).inherited = maxCount (mkBlock s e cnt tot).counter := rfl

/-! ### Characterisation of `build_initial_blocks` -/

/-- The color sequence of the input: the engine never reads the run lengths. -/
def colorsOf (rle : List RLE) : List Color := rle.map Prod.fst

/-- The multiset of colors of the `k` RLE entries starting at index `i`. -/
def sliceMs (colors : List Color) (i k : ℕ) : Multiset Color :=
  ((colors.drop i).take k : List Color)

theorem sliceMs_zero (colors : List Color) (i : ℕ) : sliceMs colors i 0 = 0 := rfl

theorem sliceMs_cons (colors : List Color) {i : ℕ} (k : ℕ) (h : i < colors.length) :
    sliceMs colors i (k + 1) = colors.get ⟨i, h⟩ ::ₘ sliceMs colors (i + 1) k := by
  unfold sliceMs
  have h1 : colors.drop i = colors[i] :: colors.drop (i + 1) :=
    (List.getElem_cons_drop colors i h).symm
  rw [h1, List.take_succ_cons, ← Multiset.cons_coe]
  rfl

theorem sliceMs_add (colors : List Color) (i k1 k2 : ℕ) :
    sliceMs colors i (k1 + k2) = sliceMs colors i k1 + sliceMs colors (i + k1) k2 := by
  unfold sliceMs
  rw [List.take_add, ← List.drop_drop]
  simp

/-- The payload invariants of every created block: the range is a nonempty
subrange of the input, `total` is the number of entries in the range, `counter`
is the multiset of their colors, `inherited` is the maximal multiplicity. -/
def CoreOK (colors : List Color) (b : BlockCore) : Prop :=
  b.start ≤ b.endIdx ∧ b.endIdx + 1 ≤ colors.length ∧
  b.total = b.endIdx + 1 - b.start ∧
  b.counter = sliceMs colors b.start (b.endIdx + 1 - b.start) ∧
  b.inherited = maxCount b.counter

/-- A sequence of blocks tiles the index range `[i, n)` exactly (used both for
the initial partition and, via `Chain`, for every intermediate state). -/
def PartitionFrom (colors : List Color) : ℕ → List BlockCore → Prop
  | i, [] => i = colors.length
  | i, b :: bs => b.start = i ∧ CoreOK colors b ∧ PartitionFrom colors (b.endIdx + 1) bs

theorem innerLoop_spec (rle : List RLE) (T : ℤ) (start : ℕ) :
    ∀ fuel i ct cnt, rle.length - i ≤ fuel → i ≤ rle.length →
    ∃ j, innerLoop rle T start fuel i ct cnt
          = (j, ct + (j - i), cnt + sliceMs (colorsOf rle) i (j - i)) ∧
        i ≤ j ∧ j ≤ rle.length ∧
        (i < rle.length → ((ct : ℤ) < T ∨ start = i) → i < j) := by
  intro fuel
  induction fuel with
  | zero =>
    intro i ct cnt hf hi
    have : i = rle.length := by omega
    refine ⟨i, ?_, le_refl _, this.le, by omega⟩
    simp [innerLoop, sliceMs_zero]
  | succ fuel ih =>
    intro i ct cnt hf hi
    by_cases h : i < rle.length ∧ ((ct : ℤ) < T ∨ start = i)
    · obtain ⟨j, hrec, hij, hjn, _⟩ := ih (i + 1) (ct + 1) ((rle.get ⟨i, h.1⟩).1 ::ₘ cnt)
        (by omega) h.1
      refine ⟨j, ?_, by omega, hjn, fun _ _ => by omega⟩
      rw [innerLoop, dif_pos h, hrec]
      have hcol : i < (colorsOf rle).length := by simpa [colorsOf] using h.1
      have hget : (colorsOf rle).get ⟨i, hcol⟩ = (rle.get ⟨i, h.1⟩).1 := by
        simp [colorsOf]
      have hk : j - i = (j - (i + 1)) + 1 := by omega
      refine Prod.ext rfl (Prod.ext ?_ ?_) <;> simp only
      · omega
      · rw [hk, sliceMs_cons (colorsOf rle) (j - (i + 1)) hcol, hget]
        simp [Multiset.cons_swap]
    · refine ⟨i, ?_, le_refl _, hi, fun h1 h2 => absurd ⟨h1, h2⟩ h⟩
      rw [innerLoop, dif_neg h]
      simp [sliceMs_zero]

theorem buildLoop_spec (rle : List RLE) (T : ℤ) :
    ∀ fuel i, rle.length - i ≤ fuel → i ≤ rle.length →
    PartitionFrom (colorsOf rle) i (buildLoop rle T fuel i) := by
  intro fuel
  induction fuel with
  | zero =>
    intro i hf hi
    have : i = rle.length := by omega
    simpa [buildLoop, PartitionFrom, colorsOf] using this
  | succ fuel ih =>
    intro i hf hi
    by_cases h : i < rle.length
    · obtain ⟨j, hrec, hij, hjn, hprog⟩ :=
        innerLoop_spec rle T i rle.length i 0 0 (by omega) hi
      have hij' : i < j := hprog h (Or.inr rfl)
      rw [buildLoop, if_pos h, hrec]
      have hlen : (colorsOf rle).length = rle.length := by simp [colorsOf]
      refine ⟨rfl, ⟨?_, ?_, ?_, ?_, rfl⟩, ?_⟩
      · simp only [mkBlock]; omega
      · simp only [mkBlock]; omega
      · simp only [mkBlock]; omega
      · simp only [mkBlock]
        have : j - 1 + 1 - i = j - i := by omega
        rw [this]
        simp
      · have : (mkBlock i (j - 1) (0 + sliceMs (colorsOf rle) i (j - i)) (0 + (j - i))).endIdx + 1 = j := by
          simp only [mkBlock]; omega
        rw [this]
        exact ih j (by omega) hjn
    · rw [buildLoop, if_neg h]
      have : i = rle.length := by omega
      simpa [PartitionFrom, colorsOf] using this

theorem build_initial_blocks_spec (rle : List RLE) (T : ℤ) :
    PartitionFrom (colorsOf rle) 0 (build_initial_blocks rle T) :=
  buildLoop_spec rle T rle.length 0 (by omega) (Nat.zero_le _)

theorem PartitionFrom_sum_total (colors : List Color) :
    ∀ bs i, PartitionFrom colors i bs →
    ((bs.map BlockCore.total).sum) = colors.length - i := by
  intro bs
  induction bs with
  | nil => intro i h; simp [PartitionFrom] at h; simp [h]
  | cons b bs ih =>
    intro i h
    obtain ⟨hs, ⟨h1, h2, h3, _, _⟩, hrec⟩ := h
    have := ih (b.endIdx + 1) hrec
    simp only [List.map_cons, List.sum_cons, this, h3, hs]
    omega

theorem PartitionFrom_nil_iff (colors : List Color) (bs : List BlockCore)
    (h : PartitionFrom colors 0 bs) : bs = [] ↔ colors = [] := by
  cases bs with
  | nil =>
    simp only [PartitionFrom] at h
    simp [List.eq_nil_of_length_eq_zero h.symm]
  | cons b bs =>
    obtain ⟨hs, ⟨h1, h2, _, _, _⟩, _⟩ := h
    have : colors ≠ [] := by
      intro hc
      rw [hc] at h2
      simp at h2
    simp [this]

theorem PartitionFrom_mem_coreOK (colors : List Color) :
    ∀ bs i, PartitionFrom colors i bs → ∀ b ∈ bs, CoreOK colors b := by
  intro bs
  induction bs with
  | nil => intro i _ b hb; simp at hb
  | cons x xs ih =>
    intro i h b hb
    obtain ⟨_, hok, hrec⟩ := h
    rcases List.mem_cons.mp hb with hb | hb
    · exact hb ▸ hok
    · exact ih _ hrec b hb

/-! ### The chain invariant

`Chain a colors prev pos is` states that `is` lists arena indices of alive
blocks forming a doubly-linked chain whose payloads tile the input index range
`[pos, n)`, with the head's `left` pointer equal to `prev`. -/

def Chain (a : List Node) (colors : List Color) : Option ℕ → ℕ → List ℕ → Prop
  | _, pos, [] => pos = colors.length
  | prev, pos, i :: rest =>
      i < a.length ∧ (nodeAt a i).alive = true ∧ (nodeAt a i).left = prev ∧
      (nodeAt a i).right = rest.head? ∧ (nodeAt a i).core.start = pos ∧
      CoreOK colors (nodeAt a i).core ∧
      Chain a colors (some i) ((nodeAt a i).core.endIdx + 1) rest

theorem chain_mem_lt {a : List Node} {colors : List Color} :
    ∀ {is : List ℕ} {prev : Option ℕ} {pos : ℕ}, Chain a colors prev pos is →
    ∀ i ∈ is, i < a.length := by
  intro is
  induction is with
  | nil => intro prev pos _ i hi; simp at hi
  | cons x xs ih =>
    intro prev pos h i hi
    rcases List.mem_cons.mp hi with hi | hi
    · exact hi ▸ h.1
    · exact ih h.2.2.2.2.2.2 i hi

theorem chain_alive {a : List Node} {colors : List Color} :
    ∀ {is : List ℕ} {prev : Option ℕ} {pos : ℕ}, Chain a colors prev pos is →
    ∀ i ∈ is, (nodeAt a i).alive = true := by
  intro is
  induction is with
  | nil => intro prev pos _ i hi; simp at hi
  | cons x xs ih =>
    intro prev pos h i hi
    rcases List.mem_cons.mp hi with hi | hi
    · exact hi ▸ h.2.1
    · exact ih h.2.2.2.2.2.2 i hi

theorem chain_coreOK {a : List Node} {colors : List Color} :
    ∀ {is : List ℕ} {prev : Option ℕ} {pos : ℕ}, Chain a colors prev pos is →
    ∀ i ∈ is, CoreOK colors (nodeAt a i).core := by
  intro is
  induction is with
  | nil => intro prev pos _ i hi; simp at hi
  | cons x xs ih =>
    intro prev pos h i hi
    rcases List.mem_cons.mp hi with hi | hi
    · exact hi ▸ h.2.2.2.2.2.1
    · exact ih h.2.2.2.2.2.2 i hi

theorem chain_start_lb {a : List Node} {colors : List Color} :
    ∀ {is : List ℕ} {prev : Option ℕ} {pos : ℕ}, Chain a colors prev pos is →
    ∀ i ∈ is, pos ≤ (nodeAt a i).core.start := by
  intro is
  induction is with
  | nil => intro prev pos _ i hi; simp at hi
  | cons x xs ih =>
    intro prev pos h i hi
    obtain ⟨_, _, _, _, hst, hok, hrec⟩ := h
    rcases List.mem_cons.mp hi with hi | hi
    · rw [hi]; omega
    · have := ih hrec i hi
      have h1 : (nodeAt a x).core.start ≤ (nodeAt a x).core.endIdx := hok.1
      omega

theorem chain_nodup {a : List Node} {colors : List Color} :
    ∀ {is : List ℕ} {prev : Option ℕ} {pos : ℕ}, Chain a colors prev pos is →
    is.Nodup := by
  intro is
  induction is with
  | nil => intro prev pos _; simp
  | cons x xs ih =>
    intro prev pos h
    obtain ⟨_, _, _, _, hst, hok, hrec⟩ := h
    refine List.nodup_cons.mpr ⟨?_, ih hrec⟩
    intro hx
    have := chain_start_lb hrec x hx
    have h1 : (nodeAt a x).core.start ≤ (nodeAt a x).core.endIdx := hok.1
    omega

theorem nodup_lt_length_le {is : List ℕ} {L : ℕ}
    (hn : is.Nodup) (hlt : ∀ i ∈ is, i < L) : is.length ≤ L := by
  classical
  have h1 : is.length = is.toFinset.card := (List.toFinset_card_of_nodup hn).symm
  have h2 : is.toFinset ⊆ Finset.range L := by
    intro x hx
    simp only [List.mem_toFinset] at hx
    simpa using hlt x hx
  calc is.length = is.toFinset.card := h1
    _ ≤ (Finset.range L).card := Finset.card_le_card h2
    _ = L := Finset.card_range L

theorem chain_length_le {a : List Node} {colors : List Color} {is : List ℕ}
    {prev : Option ℕ} {pos : ℕ} (h : Chain a colors prev pos is) :
    is.length ≤ a.length :=
  nodup_lt_length_le (chain_nodup h) (chain_mem_lt h)

theorem chain_get_left {a : List Node} {colors : List Color} :
    ∀ {is : List ℕ} {prev : Option ℕ} {pos : ℕ}, Chain a colors prev pos is →
    ∀ u (hu : u < is.length),
      (nodeAt a (is.get ⟨u, hu⟩)).left =
        if u = 0 then prev else some (is.getD (u - 1) 0) := by
  intro is
  induction is with
  | nil => intro prev pos _ u hu; simp at hu
  | cons x xs ih =>
    intro prev pos h u hu
    obtain ⟨_, _, hleft, _, _, _, hrec⟩ := h
    cases u with
    | zero => simpa using hleft
    | succ v =>
      have hv : v < xs.length := by simpa using hu
      have := ih hrec v hv
      cases v with
      | zero =>
        simp only [List.get_cons_succ, this, if_pos rfl]
        simp [List.getD]
      | succ w =>
        simp only [List.get_cons_succ, this, if_neg (Nat.succ_ne_zero w)]
        have h1 : w + 1 + 1 - 1 = w + 1 := rfl
        have h2 : w + 1 - 1 = w := rfl
        rw [h1, h2]
        have hw : w < xs.length := by omega
        simp [List.getD, List.getElem?_cons_succ]

/-! ### The initial state realises the chain invariant -/

theorem linkNodes_length (bs : List BlockCore) : (linkNodes bs).length = bs.length := by
  simp [linkNodes]

theorem nodeAt_linkNodes {bs : List BlockCore} {i : ℕ} (h : i < bs.length) :
    nodeAt (linkNodes bs) i =
      ⟨bs.getD i default, true,
        if i = 0 then none else some (i - 1),
        if i + 1 < bs.length then some (i + 1) else none⟩ := by
  unfold nodeAt linkNodes
  simp [List.getD, h]

theorem getD_eq_getElem {bs : List BlockCore} {i : ℕ} (h : i < bs.length) :
    bs.getD i default = bs[i] := by
  simp [List.getD, List.getElem?_eq_getElem h]

theorem PartitionFrom_drop (colors : List Color) (bs : List BlockCore) (t pos : ℕ)
    (h : PartitionFrom colors pos (bs.drop t)) (ht : t < bs.length) :
    (bs.getD t default).start = pos ∧ CoreOK colors (bs.getD t default) ∧
    PartitionFrom colors ((bs.getD t default).endIdx + 1) (bs.drop (t + 1)) := by
  rw [getD_eq_getElem ht]
  rw [← List.getElem_cons_drop bs t ht] at h
  exact h

theorem chain_init_seg {colors : List Color} (bs : List BlockCore) :
    ∀ n t pos, bs.length - t = n → t ≤ bs.length →
    PartitionFrom colors pos (bs.drop t) →
    Chain (linkNodes bs) colors (if t = 0 then none else some (t - 1)) pos
      (List.range' t (bs.length - t)) := by
  intro n
  induction n with
  | zero =>
    intro t pos hn ht h
    have htl : t = bs.length := by omega
    rw [htl] at h ⊢
    simp only [List.drop_length, PartitionFrom] at h
    simp [List.range', h, Chain]
  | succ n ih =>
    intro t pos hn ht hp
    have ht' : t < bs.length := by omega
    obtain ⟨hst, hok, hrec⟩ := PartitionFrom_drop colors bs t pos hp ht'
    have hrange : bs.length - t = (bs.length - (t + 1)) + 1 := by omega
    rw [hrange, List.range'_succ]
    have hnode := nodeAt_linkNodes ht'
    have hcore : (nodeAt (linkNodes bs) t).core = bs.getD t default := by
      rw [hnode]
    refine ⟨by simpa [linkNodes_length] using ht', by rw [hnode], by rw [hnode], ?_, ?_, ?_, ?_⟩
    · rw [hnode]
      simp only
      by_cases h1 : t + 1 < bs.length
      · have h2 : bs.length - (t + 1) = (bs.length - (t + 2)) + 1 := by omega
        rw [h2, List.range'_succ]
        simp [h1]
      · have h2 : bs.length - (t + 1) = 0 := by omega
        rw [h2]
        simp [h1, List.range']
    · rw [hcore, hst]
    · rw [hcore]; exact hok
    · rw [hcore]
      have := ih (t + 1) ((bs.getD t default).endIdx + 1) (by omega) (by omega) hrec
      simpa using this

theorem chain_init {colors : List Color} {bs : List BlockCore}
    (h : PartitionFrom colors 0 bs) :
    Chain (linkNodes bs) colors none 0 (List.range bs.length) := by
  have := chain_init_seg bs (bs.length - 0) 0 0 rfl (Nat.zero_le _) (by simpa using h)
  simpa [List.range_eq_range'] using this

/-! ### Characterisation of the seeded heap -/

/-- The candidate pushed for initial adjacency `(i, i+1)`. -/
def seedCand (a : List Node) (i : ℕ) : Cand :=
  ⟨-(compute_merge_gain (nodeAt a i).core (nodeAt a (i + 1)).core), i, i, i + 1⟩

theorem seedState_spec (bs : List BlockCore) :
    seedState (linkNodes bs) =
      ((List.range (bs.length - 1)).map (seedCand (linkNodes bs)), bs.length - 1) := by
  unfold seedState
  rw [linkNodes_length]
  suffices h : ∀ k, k ≤ bs.length →
      (List.range k).foldl
        (fun st i => pushCand (linkNodes bs) st (some i) (nodeAt (linkNodes bs) i).right)
        ([], 0)
      = ((List.range (min k (bs.length - 1))).map (seedCand (linkNodes bs)),
          min k (bs.length - 1)) by
    have := h bs.length (le_refl _)
    rcases Nat.eq_zero_or_pos bs.length with h0 | h0
    · rw [h0] at this ⊢
      simp only [Nat.zero_sub, min_zero] at this ⊢
      exact this
    · rwa [min_eq_right (by omega)] at this
  intro k
  induction k with
  | zero => intro _; simp
  | succ k ih =>
    intro hk
    rw [List.range_succ, List.foldl_append, ih (by omega)]
    simp only [List.foldl_cons, List.foldl_nil]
    have hklt : k < bs.length := by omega
    rw [nodeAt_linkNodes hklt]
    simp only
    by_cases h1 : k + 1 < bs.length
    · have hmin : min k (bs.length - 1) = k := by omega
      have hmin' : min (k + 1) (bs.length - 1) = k + 1 := by omega
      rw [hmin, hmin', if_pos h1]
      unfold pushCand
      simp only
      have ha1 : (nodeAt (linkNodes bs) k).alive = true := by
        rw [nodeAt_linkNodes hklt]
      have ha2 : (nodeAt (linkNodes bs) (k + 1)).alive = true := by
        rw [nodeAt_linkNodes h1]
      rw [ha1, ha2]
      simp only [Bool.and_self, if_pos]
      rw [List.range_succ, List.map_append]
      rfl
    · have h2 : k + 1 = bs.length := by omega
      have hmin : min k (bs.length - 1) = bs.length - 1 := by omega
      have hmin' : min (k + 1) (bs.length - 1) = bs.length - 1 := by omega
      rw [hmin, hmin', if_neg h1]
      simp [pushCand]

/-! ### Access lemmas for `mergeArena` -/

theorem nodeAt_set_oob {a : List Node} {j : ℕ} {x : Node} (h : a.length ≤ j) (k : ℕ) :
    nodeAt (a.set j x) k = nodeAt a k := by
  rw [List.set_eq_of_length_le h]

theorem coreAt_set {a : List Node} {j : ℕ} {x : Node}
    (hx : x.core = (nodeAt a j).core) (k : ℕ) :
    coreAt (a.set j x) k = coreAt a k := by
  by_cases hj : j < a.length
  · by_cases hk : j = k
    · subst hk
      rw [coreAt, nodeAt_set_self hj, hx, coreAt]
    · rw [coreAt, nodeAt_set_ne hk, coreAt]
  · rw [coreAt, nodeAt_set_oob (le_of_not_lt hj), coreAt]

theorem coreAt_append_lt {a b : List Node} {k : ℕ} (h : k < a.length) :
    coreAt (a ++ b) k = coreAt a k := by
  rw [coreAt, nodeAt_append_lt h, coreAt]

theorem setRight_length (l : List Node) (o v : Option ℕ) :
    (setRight l o v).length = l.length := by
  cases o <;> simp [setRight]

theorem setLeft_length (l : List Node) (o v : Option ℕ) :
    (setLeft l o v).length = l.length := by
  cases o <;> simp [setLeft]

theorem nodeAt_setRight_ne {l : List Node} {o v : Option ℕ} {k : ℕ}
    (h : o ≠ some k) : nodeAt (setRight l o v) k = nodeAt l k := by
  cases o with
  | none => rfl
  | some j =>
    have : j ≠ k := fun he => h (he ▸ rfl)
    exact nodeAt_set_ne this

theorem nodeAt_setRight_self {l : List Node} {j : ℕ} {v : Option ℕ}
    (h : j < l.length) :
    nodeAt (setRight l (some j) v) j = { nodeAt l j with right := v } :=
  nodeAt_set_self h

theorem nodeAt_setLeft_ne {l : List Node} {o v : Option ℕ} {k : ℕ}
    (h : o ≠ some k) : nodeAt (setLeft l o v) k = nodeAt l k := by
  cases o with
  | none => rfl
  | some j =>
    have : j ≠ k := fun he => h (he ▸ rfl)
    exact nodeAt_set_ne this

theorem nodeAt_setLeft_self {l : List Node} {j : ℕ} {v : Option ℕ}
    (h : j < l.length) :
    nodeAt (setLeft l (some j) v) j = { nodeAt l j with left := v } :=
  nodeAt_set_self h

theorem coreAt_set_right (l : List Node) (j : ℕ) (v : Option ℕ) (k : ℕ) :
    coreAt (l.set j { nodeAt l j with right := v }) k = coreAt l k := by
  apply coreAt_set
  rfl

theorem coreAt_set_left (l : List Node) (j : ℕ) (v : Option ℕ) (k : ℕ) :
    coreAt (l.set j { nodeAt l j with left := v }) k = coreAt l k := by
  apply coreAt_set
  rfl

theorem coreAt_set_alive (l : List Node) (j : ℕ) (v : Bool) (k : ℕ) :
    coreAt (l.set j { nodeAt l j with alive := v }) k = coreAt l k := by
  apply coreAt_set
  rfl

theorem coreAt_setRight (l : List Node) (o v : Option ℕ) (k : ℕ) :
    coreAt (setRight l o v) k = coreAt l k := by
  cases o with
  | none => rfl
  | some j => exact coreAt_set_right l j v k

theorem coreAt_setLeft (l : List Node) (o v : Option ℕ) (k : ℕ) :
    coreAt (setLeft l o v) k = coreAt l k := by
  cases o with
  | none => rfl
  | some j => exact coreAt_set_left l j v k

/-- The freshly created block node of one merge. -/
def newNode (a : List Node) (c : Cand) : Node :=
  ⟨merge_blocks (nodeAt a c.l).core (nodeAt a c.r).core, true,
    (nodeAt a c.l).left, (nodeAt a c.r).right⟩

/-- Appending the new node and retargeting both neighbors. -/
def linkStage (a : List Node) (c : Cand) : List Node :=
  setLeft (setRight (a ++ [newNode a c]) (nodeAt a c.l).left (some a.length))
    (nodeAt a c.r).right (some a.length)

/-- The two `alive = False` assignments. -/
def killPair (l : List Node) (i j : ℕ) : List Node :=
  (l.set i { nodeAt l i with alive := false }).set j
    { nodeAt (l.set i { nodeAt l i with alive := false }) j with alive := false }

theorem mergeArena_eq (a : List Node) (c : Cand) :
    mergeArena a c = killPair (linkStage a c) c.l c.r := rfl

theorem killPair_length (l : List Node) (i j : ℕ) :
    (killPair l i j).length = l.length := by
  simp [killPair]

theorem nodeAt_killPair_fst {l : List Node} {i j : ℕ} (hij : i ≠ j)
    (hi : i < l.length) :
    nodeAt (killPair l i j) i = { nodeAt l i with alive := false } := by
  unfold killPair
  rw [nodeAt_set_ne (Ne.symm hij), nodeAt_set_self hi]

theorem nodeAt_killPair_snd {l : List Node} {i j : ℕ} (hij : i ≠ j)
    (hj : j < l.length) :
    nodeAt (killPair l i j) j = { nodeAt l j with alive := false } := by
  unfold killPair
  have hj2 : j < (l.set i { nodeAt l i with alive := false }).length := by
    simpa using hj
  rw [nodeAt_set_self hj2, nodeAt_set_ne hij]

theorem nodeAt_killPair_other {l : List Node} {i j k : ℕ} (h1 : i ≠ k)
    (h2 : j ≠ k) : nodeAt (killPair l i j) k = nodeAt l k := by
  unfold killPair
  rw [nodeAt_set_ne h2, nodeAt_set_ne h1]

theorem coreAt_killPair (l : List Node) (i j k : ℕ) :
    coreAt (killPair l i j) k = coreAt l k := by
  unfold killPair
  rw [coreAt_set_alive, coreAt_set_alive]

theorem linkStage_length (a : List Node) (c : Cand) :
    (linkStage a c).length = a.length + 1 := by
  simp [linkStage, setLeft_length, setRight_length]

theorem coreAt_linkStage (a : List Node) (c : Cand) (k : ℕ) :
    coreAt (linkStage a c) k = coreAt (a ++ [newNode a c]) k := by
  unfold linkStage
  rw [coreAt_setLeft, coreAt_setRight]

theorem nodeAt_linkStage_other {a : List Node} {c : Cand} {k : ℕ}
    (hL : (nodeAt a c.l).left ≠ some k) (hR : (nodeAt a c.r).right ≠ some k)
    (hk : k < a.length) : nodeAt (linkStage a c) k = nodeAt a k := by
  unfold linkStage
  rw [nodeAt_setLeft_ne hR, nodeAt_setRight_ne hL, nodeAt_append_lt hk]

theorem nodeAt_linkStage_li {a : List Node} {c : Cand} {li : ℕ}
    (hLi : (nodeAt a c.l).left = some li)
    (hR : (nodeAt a c.r).right ≠ some li) (hli : li < a.length) :
    nodeAt (linkStage a c) li = { nodeAt a li with right := some a.length } := by
  unfold linkStage
  rw [hLi, nodeAt_setLeft_ne hR,
    nodeAt_setRight_self (by rw [List.length_append]; simp; omega),
    nodeAt_append_lt hli]

theorem nodeAt_linkStage_ri {a : List Node} {c : Cand} {ri : ℕ}
    (hRi : (nodeAt a c.r).right = some ri)
    (hL : (nodeAt a c.l).left ≠ some ri) (hri : ri < a.length) :
    nodeAt (linkStage a c) ri = { nodeAt a ri with left := some a.length } := by
  unfold linkStage
  rw [hRi,
    nodeAt_setLeft_self (by rw [setRight_length, List.length_append]; simp; omega),
    nodeAt_setRight_ne hL, nodeAt_append_lt hri]

theorem nodeAt_linkStage_new {a : List Node} {c : Cand}
    (hL : (nodeAt a c.l).left ≠ some a.length)
    (hR : (nodeAt a c.r).right ≠ some a.length) :
    nodeAt (linkStage a c) a.length = newNode a c := by
  unfold linkStage
  rw [nodeAt_setLeft_ne hR, nodeAt_setRight_ne hL, nodeAt_append_self]

theorem mergeArena_length (a : List Node) (c : Cand) :
    (mergeArena a c).length = a.length + 1 := by
  rw [mergeArena_eq, killPair_length, linkStage_length]

/-- Frame property of the arena mutation: the payload (`start`, `end`,
`counter`, `total`, `inherited`) of every previously existing block is
untouched; only `alive`/`left`/`right` fields change. -/
theorem mergeArena_core (a : List Node) (c : Cand) (k : ℕ) (hk : k < a.length) :
    coreAt (mergeArena a c) k = coreAt a k := by
  rw [mergeArena_eq, coreAt_killPair, coreAt_linkStage, coreAt_append_lt hk]

/-- The appended block of a merge carries exactly `merge_blocks(left, right)`. -/
theorem mergeArena_core_new (a : List Node) (c : Cand) :
    coreAt (mergeArena a c) a.length =
      merge_blocks (nodeAt a c.l).core (nodeAt a c.r).core := by
  rw [mergeArena_eq, coreAt_killPair, coreAt_linkStage, coreAt, nodeAt_append_self]
  rfl

/-- Disequality facts available when a non-stale candidate is merged; derived
from the chain invariant. -/
structure MergeCtx (a : List Node) (c : Cand) : Prop where
  hl : c.l < a.length
  hr : c.r < a.length
  hlr : c.l ≠ c.r
  hLl : ∀ li, (nodeAt a c.l).left = some li → li < a.length ∧ li ≠ c.l ∧ li ≠ c.r
  hRr : ∀ ri, (nodeAt a c.r).right = some ri → ri < a.length ∧ ri ≠ c.l ∧ ri ≠ c.r
  hLR : ∀ li ri, (nodeAt a c.l).left = some li → (nodeAt a c.r).right = some ri →
    li ≠ ri

theorem MergeCtx.left_ne_l {a : List Node} {c : Cand} (ctx : MergeCtx a c) :
    (nodeAt a c.l).left ≠ some c.l := fun he => (ctx.hLl _ he).2.1 rfl

theorem MergeCtx.left_ne_r {a : List Node} {c : Cand} (ctx : MergeCtx a c) :
    (nodeAt a c.l).left ≠ some c.r := fun he => (ctx.hLl _ he).2.2 rfl

theorem MergeCtx.right_ne_l {a : List Node} {c : Cand} (ctx : MergeCtx a c) :
    (nodeAt a c.r).right ≠ some c.l := fun he => (ctx.hRr _ he).2.1 rfl

theorem MergeCtx.right_ne_r {a : List Node} {c : Cand} (ctx : MergeCtx a c) :
    (nodeAt a c.r).right ≠ some c.r := fun he => (ctx.hRr _ he).2.2 rfl

theorem MergeCtx.left_ne_new {a : List Node} {c : Cand} (ctx : MergeCtx a c) :
    (nodeAt a c.l).left ≠ some a.length := fun he => by
  have := (ctx.hLl _ he).1
  omega

theorem MergeCtx.right_ne_new {a : List Node} {c : Cand} (ctx : MergeCtx a c) :
    (nodeAt a c.r).right ≠ some a.length := fun he => by
  have := (ctx.hRr _ he).1
  omega

theorem mergeArena_nodeAt_l {a : List Node} {c : Cand} (ctx : MergeCtx a c) :
    nodeAt (mergeArena a c) c.l = { nodeAt a c.l with alive := false } := by
  have hlen : c.l < (linkStage a c).length := by
    have := ctx.hl
    rw [linkStage_length]
    omega
  rw [mergeArena_eq, nodeAt_killPair_fst ctx.hlr hlen,
    nodeAt_linkStage_other ctx.left_ne_l ctx.right_ne_l ctx.hl]

theorem mergeArena_nodeAt_r {a : List Node} {c : Cand} (ctx : MergeCtx a c) :
    nodeAt (mergeArena a c) c.r = { nodeAt a c.r with alive := false } := by
  have hlen : c.r < (linkStage a c).length := by
    have := ctx.hr
    rw [linkStage_length]
    omega
  rw [mergeArena_eq, nodeAt_killPair_snd ctx.hlr hlen,
    nodeAt_linkStage_other ctx.left_ne_r ctx.right_ne_r ctx.hr]

theorem mergeArena_nodeAt_li {a : List Node} {c : Cand} (ctx : MergeCtx a c)
    {li : ℕ} (hLi : (nodeAt a c.l).left = some li) :
    nodeAt (mergeArena a c) li = { nodeAt a li with right := some a.length } := by
  obtain ⟨hlt, hne_l, hne_r⟩ := ctx.hLl li hLi
  rw [mergeArena_eq, nodeAt_killPair_other (Ne.symm hne_l) (Ne.symm hne_r),
    nodeAt_linkStage_li hLi (fun he => ctx.hLR li li hLi he rfl) hlt]

theorem mergeArena_nodeAt_ri {a : List Node} {c : Cand} (ctx : MergeCtx a c)
    {ri : ℕ} (hRi : (nodeAt a c.r).right = some ri) :
    nodeAt (mergeArena a c) ri = { nodeAt a ri with left := some a.length } := by
  obtain ⟨hlt, hne_l, hne_r⟩ := ctx.hRr ri hRi
  rw [mergeArena_eq, nodeAt_killPair_other (Ne.symm hne_l) (Ne.symm hne_r),
    nodeAt_linkStage_ri hRi (fun he => ctx.hLR ri ri he hRi rfl) hlt]

theorem mergeArena_nodeAt_new {a : List Node} {c : Cand} (ctx : MergeCtx a c) :
    nodeAt (mergeArena a c) a.length = newNode a c := by
  have h1 : c.l ≠ a.length := Nat.ne_of_lt ctx.hl
  have h2 : c.r ≠ a.length := Nat.ne_of_lt ctx.hr
  rw [mergeArena_eq, nodeAt_killPair_other h1 h2,
    nodeAt_linkStage_new ctx.left_ne_new ctx.right_ne_new]

theorem mergeArena_nodeAt_other {a : List Node} {c : Cand} (_ctx : MergeCtx a c)
    {k : ℕ} (hne_l : k ≠ c.l) (hne_r : k ≠ c.r) (hne_new : k ≠ a.length)
    (hLi : (nodeAt a c.l).left ≠ some k) (hRi : (nodeAt a c.r).right ≠ some k) :
    nodeAt (mergeArena a c) k = nodeAt a k := by
  by_cases hk : k < a.length
  · rw [mergeArena_eq, nodeAt_killPair_other (Ne.symm hne_l) (Ne.symm hne_r),
      nodeAt_linkStage_other hLi hRi hk]
  · have hd : nodeAt (mergeArena a c) k = default := by
      apply nodeAt_default
      rw [mergeArena_length]
      omega
    rw [hd, nodeAt_default hk]

theorem mergeArena_alive {a : List Node} {c : Cand} (ctx : MergeCtx a c)
    {k : ℕ} (hne_l : k ≠ c.l) (hne_r : k ≠ c.r) (hne_new : k ≠ a.length) :
    (nodeAt (mergeArena a c) k).alive = (nodeAt a k).alive := by
  by_cases hLi : (nodeAt a c.l).left = some k
  · rw [mergeArena_nodeAt_li ctx hLi]
  · by_cases hRi : (nodeAt a c.r).right = some k
    · rw [mergeArena_nodeAt_ri ctx hRi]
    · rw [mergeArena_nodeAt_other ctx hne_l hne_r hne_new hLi hRi]

/-! ### Transformation of the chain by one merge -/

/-- Every alive arena index appears in the chain list. -/
def AliveComplete (a : List Node) (is : List ℕ) : Prop :=
  ∀ k, (nodeAt a k).alive = true → k ∈ is

theorem chain_suffix {a : List Node} {colors : List Color} :
    ∀ {xs zs : List ℕ} {prev : Option ℕ} {pos : ℕ},
    Chain a colors prev pos (xs ++ zs) →
    ∃ prev2 pos2, Chain a colors prev2 pos2 zs := by
  intro xs
  induction xs with
  | nil => intro zs prev pos h; exact ⟨prev, pos, h⟩
  | cons x xs2 ih =>
    intro zs prev pos h
    exact ih h.2.2.2.2.2.2

theorem chain_right_at {a : List Node} {colors : List Color}
    {xs zs : List ℕ} {i : ℕ} {prev : Option ℕ} {pos : ℕ}
    (h : Chain a colors prev pos (xs ++ i :: zs)) :
    (nodeAt a i).right = zs.head? := by
  obtain ⟨p2, q2, h2⟩ := chain_suffix h
  exact h2.2.2.2.1

theorem chain_left_at {a : List Node} {colors : List Color} :
    ∀ {xs : List ℕ} {j : ℕ} {zs : List ℕ} {prev : Option ℕ} {pos : ℕ},
    Chain a colors prev pos (xs ++ j :: zs) →
    (nodeAt a j).left =
      (match xs.getLast? with | none => prev | some w => some w) := by
  intro xs
  induction xs with
  | nil => intro j zs prev pos h; exact h.2.2.1
  | cons x xs2 ih =>
    intro j zs prev pos h
    have htail := h.2.2.2.2.2.2
    have := ih htail
    cases hxs2 : xs2.getLast? with
    | none =>
      have hnil : xs2 = [] := List.getLast?_eq_none_iff.mp hxs2
      subst hnil
      simpa using this
    | some w =>
      cases xs2 with
      | nil => simp at hxs2
      | cons y ys2 =>
        rw [List.getLast?_cons_cons]
        rw [hxs2] at this ⊢
        exact this

/-- `chain_left_at` with the prefix explicit, for when unification cannot
split the list. -/
theorem chain_left_at_x {a : List Node} {colors : List Color} (xs : List ℕ)
    {j : ℕ} {zs : List ℕ} {prev : Option ℕ} {pos : ℕ}
    (h : Chain a colors prev pos (xs ++ j :: zs)) :
    (nodeAt a j).left =
      (match xs.getLast? with | none => prev | some w => some w) :=
  chain_left_at h

theorem chain_right_mid (a : List Node) (colors : List Color) (xs : List ℕ)
    (l r : ℕ) (ys : List ℕ) (prev : Option ℕ) (pos : ℕ)
    (hch : Chain a colors prev pos (xs ++ l :: r :: ys)) :
    (nodeAt a r).right = ys.head? := by
  have heq : xs ++ l :: r :: ys = (xs ++ [l]) ++ r :: ys := by simp
  rw [heq] at hch
  exact chain_right_at hch

theorem chain_stable {a A : List Node} {colors : List Color}
    (hlen : a.length ≤ A.length) :
    ∀ {zs : List ℕ} {prev : Option ℕ} {pos : ℕ},
    Chain a colors prev pos zs → (∀ k ∈ zs, nodeAt A k = nodeAt a k) →
    Chain A colors prev pos zs := by
  intro zs
  induction zs with
  | nil => intro prev pos h _; exact h
  | cons z zs2 ih =>
    intro prev pos h hst
    obtain ⟨h1, h2, h3, h4, h5, h6, h7⟩ := h
    have hz := hst z (List.mem_cons_self z zs2)
    exact ⟨by omega, by rw [hz]; exact h2, by rw [hz]; exact h3,
      by rw [hz]; exact h4, by rw [hz]; exact h5, by rw [hz]; exact h6,
      by rw [hz]; exact ih h7 fun k hk => hst k (List.mem_cons_of_mem z hk)⟩

/-- Merging two blocks whose ranges are adjacent yields a block satisfying the
payload invariants over the combined range. -/
theorem CoreOK_merge {colors : List Color} {l r : BlockCore}
    (hl : CoreOK colors l) (hr : CoreOK colors r)
    (hadj : r.start = l.endIdx + 1) :
    CoreOK colors (merge_blocks l r) := by
  obtain ⟨hl1, hl2, hl3, hl4, hl5⟩ := hl
  obtain ⟨hr1, hr2, hr3, hr4, hr5⟩ := hr
  refine ⟨by simp only [merge_blocks, mkBlock]; omega,
    by simp only [merge_blocks, mkBlock]; omega,
    by simp only [merge_blocks, mkBlock]; omega, ?_, rfl⟩
  simp only [merge_blocks, mkBlock]
  rw [hl4, hr4, hadj]
  have h1 : l.endIdx + 1 = l.start + (l.endIdx + 1 - l.start) := by omega
  have h2 : r.endIdx + 1 - l.start
      = (l.endIdx + 1 - l.start) + (r.endIdx + 1 - (l.endIdx + 1)) := by omega
  rw [h2]
  rw [sliceMs_add colors l.start (l.endIdx + 1 - l.start) (r.endIdx + 1 - (l.endIdx + 1))]
  rw [← h1]

theorem nodup_append_facts {xs ys : List ℕ} {l r : ℕ}
    (h : (xs ++ l :: r :: ys).Nodup) :
    l ≠ r ∧ l ∉ xs ∧ r ∉ xs ∧ l ∉ ys ∧ r ∉ ys ∧
      (∀ k ∈ xs, k ∉ ys) ∧ xs.Nodup ∧ ys.Nodup := by
  rw [List.nodup_append] at h
  obtain ⟨hxs, hcons, hdisj⟩ := h
  rw [List.nodup_cons] at hcons
  obtain ⟨hl, hcons2⟩ := hcons
  rw [List.nodup_cons] at hcons2
  obtain ⟨hr, hys⟩ := hcons2
  simp only [List.mem_cons] at hl hr
  refine ⟨fun he => hl (Or.inl he), ?_, ?_, fun he => hl (Or.inr he), hr, ?_, hxs, hys⟩
  · intro hmem
    exact hdisj hmem (List.mem_cons_self l (r :: ys))
  · intro hmem
    exact hdisj hmem (List.mem_cons_of_mem l (List.mem_cons_self r ys))
  · intro k hk hky
    exact hdisj hk (List.mem_cons_of_mem l (List.mem_cons_of_mem r hky))

/-- Derives the disequality context of a merge from the chain invariant. -/
theorem mergeCtx_of_chain {a : List Node} {colors : List Color} {c : Cand}
    {xs ys : List ℕ} {prev : Option ℕ} {pos : ℕ}
    (hch : Chain a colors prev pos (xs ++ c.l :: c.r :: ys))
    (hprev : prev = none) : MergeCtx a c := by
  have hnd := chain_nodup hch
  obtain ⟨hlr, hlxs, hrxs, hlys, hrys, hdisj, hxs, hys⟩ := nodup_append_facts hnd
  have hmeml : c.l ∈ xs ++ c.l :: c.r :: ys := by simp
  have hmemr : c.r ∈ xs ++ c.l :: c.r :: ys := by simp
  have hLeft := chain_left_at hch
  have hRight : (nodeAt a c.r).right = ys.head? := by
    have : xs ++ c.l :: c.r :: ys = (xs ++ [c.l]) ++ c.r :: ys := by simp
    rw [this] at hch
    exact chain_right_at hch
  refine ⟨chain_mem_lt hch _ hmeml, chain_mem_lt hch _ hmemr, hlr, ?_, ?_, ?_⟩
  · intro li hli
    rw [hLeft, hprev] at hli
    cases hxl : xs.getLast? with
    | none => rw [hxl] at hli; simp at hli
    | some w =>
      rw [hxl] at hli
      simp only [Option.some.injEq] at hli
      have hwmem : li ∈ xs := by
        rw [← hli]
        exact List.mem_of_mem_getLast? hxl
      refine ⟨chain_mem_lt hch _ (by simp [hwmem]), ?_, ?_⟩
      · intro he; rw [he] at hwmem; exact hlxs hwmem
      · intro he; rw [he] at hwmem; exact hrxs hwmem
  · intro ri hri
    rw [hRight] at hri
    cases ys with
    | nil => simp at hri
    | cons w ws =>
      simp only [List.head?_cons, Option.some.injEq] at hri
      have hwmem : ri ∈ w :: ws := by
        rw [← hri]
        exact List.mem_cons_self w ws
      refine ⟨chain_mem_lt hch _ (by simp [hwmem]), ?_, ?_⟩
      · intro he; rw [he] at hwmem; exact hlys hwmem
      · intro he; rw [he] at hwmem; exact hrys hwmem
  · intro li ri hli hri
    rw [hLeft, hprev] at hli
    rw [hRight] at hri
    cases hxl : xs.getLast? with
    | none => rw [hxl] at hli; simp at hli
    | some w =>
      rw [hxl] at hli
      simp only [Option.some.injEq] at hli
      have hlimem : li ∈ xs := by
        rw [← hli]
        exact List.mem_of_mem_getLast? hxl
      cases ys with
      | nil => simp at hri
      | cons w2 ws =>
        simp only [List.head?_cons, Option.some.injEq] at hri
        have hrimem : ri ∈ w2 :: ws := by
          rw [← hri]
          exact List.mem_cons_self w2 ws
        intro he
        rw [he] at hlimem
        exact hdisj ri hlimem hrimem

/-- The chain after one merge: the two merged entries are replaced by the new
arena index; links, coverage and payloads are all preserved. -/
theorem chain_merge {a : List Node} {colors : List Color} {c : Cand}
    {ys : List ℕ} (ctx : MergeCtx a c)
    (hyl : ∀ li, (nodeAt a c.l).left = some li → li ∉ ys) :
    ∀ (xs : List ℕ) (prev : Option ℕ) (pos : ℕ),
    Chain a colors prev pos (xs ++ c.l :: c.r :: ys) →
    (xs ++ c.l :: c.r :: ys).Nodup →
    Chain (mergeArena a c) colors prev pos (xs ++ a.length :: ys) := by
  intro xs
  induction xs with
  | nil =>
    intro prev pos hch hnd
    obtain ⟨h1l, h2l, h3l, h4l, h5l, h6l, htail⟩ := hch
    obtain ⟨h1r, h2r, h3r, h4r, h5r, h6r, htail2⟩ := htail
    obtain ⟨_, _, _, hlys, hrys, _, _, hysnd⟩ := nodup_append_facts hnd
    have hnew := mergeArena_nodeAt_new ctx
    have hAlen : (mergeArena a c).length = a.length + 1 := mergeArena_length a c
    refine ⟨by omega, by rw [hnew]; rfl, by rw [hnew]; exact h3l,
      by rw [hnew]; exact h4r, ?_, ?_, ?_⟩
    · rw [hnew]
      simpa [newNode, merge_blocks, mkBlock] using h5l
    · rw [hnew]
      exact CoreOK_merge h6l h6r (by omega)
    · rw [hnew]
      have hend : (newNode a c).core.endIdx = (nodeAt a c.r).core.endIdx := rfl
      rw [hend]
      cases ys with
      | nil => exact htail2
      | cons ri ws =>
        have hRi : (nodeAt a c.r).right = some ri := by simpa using h4r
        obtain ⟨g1, g2, g3, g4, g5, g6, gtail⟩ := htail2
        have hri := mergeArena_nodeAt_ri ctx hRi
        refine ⟨by omega, by rw [hri]; exact g2, by rw [hri], by rw [hri]; exact g4,
          by rw [hri]; exact g5, by rw [hri]; exact g6, ?_⟩
        rw [hri]
        apply chain_stable (by omega) gtail
        intro k hk
        have hknd : k ≠ ri := by
          intro he
          rw [List.nodup_cons] at hysnd
          exact hysnd.1 (he ▸ hk)
        apply mergeArena_nodeAt_other ctx
        · intro he; exact hlys (he ▸ List.mem_cons_of_mem ri hk)
        · intro he; exact hrys (he ▸ List.mem_cons_of_mem ri hk)
        · have := chain_mem_lt gtail k hk
          omega
        · intro he
          exact hyl k he (List.mem_cons_of_mem ri hk)
        · rw [hRi]
          intro he
          simp only [Option.some.injEq] at he
          exact hknd he.symm
  | cons x xs2 ih =>
    intro prev pos hch hnd
    obtain ⟨h1x, h2x, h3x, h4x, h5x, h6x, htail⟩ := hch
    have hndtail : (xs2 ++ c.l :: c.r :: ys).Nodup := by
      rw [List.cons_append, List.nodup_cons] at hnd
      exact hnd.2
    have hxnotin : x ∉ xs2 ++ c.l :: c.r :: ys := by
      rw [List.cons_append, List.nodup_cons] at hnd
      exact hnd.1
    have hxne_new : x ≠ a.length := by
      have := h1x; omega
    have hnode_x : nodeAt (mergeArena a c) x =
        (match xs2 with
          | [] => { nodeAt a x with right := some a.length }
          | _ :: _ => nodeAt a x) := by
      cases xs2 with
      | nil =>
        have hLi : (nodeAt a c.l).left = some x := by
          have := chain_left_at_x ([] : List ℕ) htail
          simpa using this
        exact mergeArena_nodeAt_li ctx hLi
      | cons z zs3 =>
        have hLi : (nodeAt a c.l).left = some ((z :: zs3).getLast (by simp)) := by
          have := chain_left_at_x (z :: zs3) htail
          rw [this]
          rw [List.getLast?_eq_getLast (z :: zs3) (by simp)]
        apply mergeArena_nodeAt_other ctx
        · intro he
          apply hxnotin
          rw [he]
          simp
        · intro he
          apply hxnotin
          rw [he]
          simp
        · exact hxne_new
        · rw [hLi]
          intro he
          simp only [Option.some.injEq] at he
          apply hxnotin
          rw [← he]
          exact List.mem_append_left _ (List.getLast_mem _)
        · intro he
          have hRight : (nodeAt a c.r).right = ys.head? :=
            chain_right_mid a colors (z :: zs3) c.l c.r ys _ _ htail
          rw [hRight] at he
          cases ys with
          | nil => simp at he
          | cons w ws =>
            simp only [List.head?_cons, Option.some.injEq] at he
            apply hxnotin
            rw [he]
            simp
    refine ⟨by have := h1x; have := mergeArena_length a c; omega, ?_, ?_, ?_, ?_, ?_, ?_⟩
    · cases xs2 <;> simp only [hnode_x] <;> exact h2x
    · cases xs2 <;> simp only [hnode_x] <;> exact h3x
    · cases xs2 with
      | nil => simp only [hnode_x]; simp
      | cons z zs3 =>
        simp only [hnode_x]
        rw [h4x]
        simp
    · cases xs2 <;> simp only [hnode_x] <;> exact h5x
    · cases xs2 <;> simp only [hnode_x] <;> exact h6x
    · cases xs2 with
      | nil => simp only [hnode_x]; exact ih (some x) _ htail hndtail
      | cons z zs3 => simp only [hnode_x]; exact ih (some x) _ htail hndtail

/-! ### The heap invariant and the full driver invariant -/

/-- Invariant of the candidate heap: indices in range, cached `-gain` values
consistent with the (immutable) payloads, `merge_id`s pairwise distinct and
below the counter, and every currently-live adjacency has a queued candidate. -/
structure HeapInv (a : List Node) (heap : List Cand) (nextId : ℕ) : Prop where
  idx : ∀ c ∈ heap, c.l < a.length ∧ c.r < a.length
  gain_ok : ∀ c ∈ heap,
    c.negGain = -(compute_merge_gain (nodeAt a c.l).core (nodeAt a c.r).core)
  ids_lt : ∀ c ∈ heap, c.id < nextId
  ids_nodup : (heap.map Cand.id).Nodup
  witness : ∀ i j, (nodeAt a i).alive = true → (nodeAt a j).alive = true →
    (nodeAt a i).right = some j → ∃ c ∈ heap, c.l = i ∧ c.r = j

/-- The driver invariant: the alive blocks form a chain tiling the input, the
live count matches, and the heap invariant holds. -/
structure Inv (colors : List Color) (s : MState) : Prop where
  chain : ∃ is, Chain s.arena colors none 0 is ∧ AliveComplete s.arena is ∧
    s.count = is.length
  hinv : HeapInv s.arena s.heap s.nextId

theorem pushCand_none_l (a : List Node) (st : List Cand × ℕ) (r : Option ℕ) :
    pushCand a st none r = st := rfl

theorem pushCand_none_r (a : List Node) (st : List Cand × ℕ) (l : Option ℕ) :
    pushCand a st l none = st := by
  cases l <;> rfl

theorem pushCand_some (a : List Node) (st : List Cand × ℕ) (li ri : ℕ)
    (h : ((nodeAt a li).alive && (nodeAt a ri).alive) = true) :
    pushCand a st (some li) (some ri) =
      (st.1 ++ [⟨-(compute_merge_gain (nodeAt a li).core (nodeAt a ri).core),
         st.2, li, ri⟩], st.2 + 1) := by
  unfold pushCand
  simp only
  rw [if_pos h]

theorem pushCand_some_neg (a : List Node) (st : List Cand × ℕ) (li ri : ℕ)
    (h : ¬ ((nodeAt a li).alive && (nodeAt a ri).alive) = true) :
    pushCand a st (some li) (some ri) = st := by
  unfold pushCand
  simp only
  rw [if_neg h]

theorem mem_of_head?_eq {α : Type} {l : List α} {a : α} (h : l.head? = some a) :
    a ∈ l := by
  cases l with
  | nil => simp at h
  | cons w ws =>
    simp only [List.head?_cons, Option.some.injEq] at h
    rw [← h]
    exact List.mem_cons_self w ws

/-- Unfolding equation for `doMerge`. -/
theorem doMerge_def (s : MState) (c : Cand) (rest : List Cand) :
    doMerge s c rest =
      ⟨mergeArena s.arena c,
        (pushCand (mergeArena s.arena c)
          (pushCand (mergeArena s.arena c) (rest, s.nextId)
            (nodeAt s.arena c.l).left (some s.arena.length))
          (some s.arena.length) (nodeAt s.arena c.r).right).1,
        (pushCand (mergeArena s.arena c)
          (pushCand (mergeArena s.arena c) (rest, s.nextId)
            (nodeAt s.arena c.l).left (some s.arena.length))
          (some s.arena.length) (nodeAt s.arena c.r).right).2,
        s.count - 1⟩ := rfl

theorem chain_locate {a : List Node} {colors : List Color} {is : List ℕ}
    {prev : Option ℕ} {pos : ℕ}
    (hch : Chain a colors prev pos is) (hAC : AliveComplete a is) {l r : ℕ}
    (hal : (nodeAt a l).alive = true) (hrt : (nodeAt a l).right = some r) :
    ∃ xs ys, is = xs ++ l :: r :: ys := by
  have hmem : l ∈ is := hAC l hal
  obtain ⟨xs, zs, rfl⟩ := List.append_of_mem hmem
  rw [chain_right_at hch] at hrt
  cases zs with
  | nil => simp at hrt
  | cons w ws =>
    simp only [List.head?_cons, Option.some.injEq] at hrt
    exact ⟨xs, ws, by rw [hrt]⟩

theorem chain_next {a : List Node} {colors : List Color} {is : List ℕ}
    {prev : Option ℕ} {pos : ℕ}
    (hch : Chain a colors prev pos is) {i j : ℕ} (hmem : i ∈ is)
    (hrt : (nodeAt a i).right = some j) : j ∈ is := by
  obtain ⟨xs, zs, rfl⟩ := List.append_of_mem hmem
  rw [chain_right_at hch] at hrt
  cases zs with
  | nil => simp at hrt
  | cons w ws =>
    simp only [List.head?_cons, Option.some.injEq] at hrt
    rw [← hrt]
    simp

theorem aliveComplete_merge {a : List Node} {c : Cand} {xs ys : List ℕ}
    (ctx : MergeCtx a c)
    (hAC : AliveComplete a (xs ++ c.l :: c.r :: ys)) :
    AliveComplete (mergeArena a c) (xs ++ a.length :: ys) := by
  intro k hk
  by_cases hknew : k = a.length
  · rw [hknew]; simp
  by_cases hkl : k = c.l
  · rw [hkl, mergeArena_nodeAt_l ctx] at hk
    simp at hk
  by_cases hkr : k = c.r
  · rw [hkr, mergeArena_nodeAt_r ctx] at hk
    simp at hk
  rw [mergeArena_alive ctx hkl hkr hknew] at hk
  have := hAC k hk
  simp only [List.mem_append, List.mem_cons] at this ⊢
  tauto

theorem rest_nodup_ids {heap rest : List Cand} {c : Cand}
    (hpop : popMin heap = some (c, rest))
    (hnd : (heap.map Cand.id).Nodup) : (rest.map Cand.id).Nodup := by
  obtain ⟨l1, l2, h1, h2⟩ := popMin_split hpop
  rw [h1] at hnd
  rw [h2]
  simp only [List.map_append, List.map_cons] at hnd ⊢
  exact List.Nodup.sublist (by simp) hnd

theorem rest_id_mem {heap rest : List Cand} {c : Cand}
    (hpop : popMin heap = some (c, rest)) {d : Cand} (hd : d ∈ rest) :
    d ∈ heap := popMin_rest_subset hpop d hd

theorem not_stale_unpack {a : List Node} {c : Cand} (h : ¬ staleAt a c) :
    (nodeAt a c.l).alive = true ∧ (nodeAt a c.r).alive = true ∧
      (nodeAt a c.l).right = some c.r := by
  unfold staleAt at h
  push_neg at h
  obtain ⟨h1, h2, h3⟩ := h
  refine ⟨?_, ?_, h3⟩
  · cases hb : (nodeAt a c.l).alive with
    | false => exact absurd hb h1
    | true => rfl
  · cases hb : (nodeAt a c.r).alive with
    | false => exact absurd hb h2
    | true => rfl

/-- One accepted merge preserves the driver invariant; moreover the live count
drops by exactly one (from at least two), and at most two candidates are
pushed. -/
theorem doMerge_inv {colors : List Color} {s : MState} {c : Cand}
    {rest : List Cand} (hinv : Inv colors s)
    (hpop : popMin s.heap = some (c, rest)) (hns : ¬ staleAt s.arena c) :
    Inv colors (doMerge s c rest) ∧ (doMerge s c rest).count = s.count - 1 ∧
      2 ≤ s.count ∧ (doMerge s c rest).heap.length ≤ rest.length + 2 ∧
      (doMerge s c rest).arena = mergeArena s.arena c := by
  obtain ⟨hal, har, hrt⟩ := not_stale_unpack hns
  obtain ⟨is, hch, hAC, hcount⟩ := hinv.chain
  obtain ⟨xs, ys, rfl⟩ := chain_locate hch hAC hal hrt
  have hctx : MergeCtx s.arena c := mergeCtx_of_chain hch rfl
  have hnd := chain_nodup hch
  obtain ⟨hndlr, hlxs, hrxs, hlys, hrys, hdisj, hxsnd, hysnd⟩ := nodup_append_facts hnd
  have hLeft := chain_left_at hch
  have hRight : (nodeAt s.arena c.r).right = ys.head? :=
    chain_right_mid s.arena colors xs c.l c.r ys none 0 hch
  have hyl : ∀ li, (nodeAt s.arena c.l).left = some li → li ∉ ys := by
    intro li hli
    rw [hLeft] at hli
    cases hxl : xs.getLast? with
    | none => rw [hxl] at hli; simp at hli
    | some w =>
      rw [hxl] at hli
      simp only [Option.some.injEq] at hli
      intro hmem
      have hwmem : li ∈ xs := by
        rw [← hli]
        exact List.mem_of_mem_getLast? hxl
      exact hdisj li hwmem hmem
  have hchain2 : Chain (mergeArena s.arena c) colors none 0
      (xs ++ s.arena.length :: ys) := chain_merge hctx hyl xs none 0 hch hnd
  have hAC2 : AliveComplete (mergeArena s.arena c) (xs ++ s.arena.length :: ys) :=
    aliveComplete_merge hctx hAC
  have hlen_eq : (doMerge s c rest).count = s.count - 1 := rfl
  have hcount2 : 2 ≤ s.count := by
    rw [hcount]
    simp only [List.length_append, List.length_cons]
    push_cast
    omega
  have hAlen : (mergeArena s.arena c).length = s.arena.length + 1 :=
    mergeArena_length s.arena c
  have anew : (nodeAt (mergeArena s.arena c) s.arena.length).alive = true := by
    rw [mergeArena_nodeAt_new hctx]
    rfl
  have hnew_right : (nodeAt (mergeArena s.arena c) s.arena.length).right
      = (nodeAt s.arena c.r).right := by
    rw [mergeArena_nodeAt_new hctx]
    rfl
  -- facts about old candidates surviving in `rest`
  have hrest_mem : ∀ d ∈ rest, d ∈ s.heap := popMin_rest_subset hpop
  have hrest_idx : ∀ d ∈ rest, d.l < s.arena.length ∧ d.r < s.arena.length :=
    fun d hd => hinv.hinv.idx d (hrest_mem d hd)
  have hrest_gain : ∀ d ∈ rest, d.negGain =
      -(compute_merge_gain (nodeAt (mergeArena s.arena c) d.l).core
        (nodeAt (mergeArena s.arena c) d.r).core) := by
    intro d hd
    have h1 := hinv.hinv.gain_ok d (hrest_mem d hd)
    have h2 := mergeArena_core s.arena c d.l (hrest_idx d hd).1
    have h3 := mergeArena_core s.arena c d.r (hrest_idx d hd).2
    rw [coreAt, coreAt] at h2 h3
    rw [h2, h3]
    exact h1
  have hrest_ids : ∀ d ∈ rest, d.id < s.nextId :=
    fun d hd => hinv.hinv.ids_lt d (hrest_mem d hd)
  have hrest_nodup : (rest.map Cand.id).Nodup :=
    rest_nodup_ids hpop hinv.hinv.ids_nodup
  -- the generic witness path for adjacencies not touching the new node
  have hwit_old : ∀ i j, (nodeAt (mergeArena s.arena c) i).alive = true →
      (nodeAt (mergeArena s.arena c) j).alive = true →
      (nodeAt (mergeArena s.arena c) i).right = some j →
      i ≠ s.arena.length → (nodeAt s.arena c.l).left ≠ some i →
      ∃ d ∈ rest, d.l = i ∧ d.r = j := by
    intro i j hi hj hr2 hilen hiLi
    have hil : i ≠ c.l := by
      intro he
      rw [he, mergeArena_nodeAt_l hctx] at hi
      simp at hi
    have hir : i ≠ c.r := by
      intro he
      rw [he, mergeArena_nodeAt_r hctx] at hi
      simp at hi
    have hrA : (nodeAt (mergeArena s.arena c) i).right = (nodeAt s.arena i).right := by
      by_cases hiRi : (nodeAt s.arena c.r).right = some i
      · rw [mergeArena_nodeAt_ri hctx hiRi]
      · rw [mergeArena_nodeAt_other hctx hil hir hilen hiLi hiRi]
    rw [hrA] at hr2
    have hia : (nodeAt s.arena i).alive = true := by
      rw [← mergeArena_alive hctx hil hir hilen]
      exact hi
    have himem := hAC i hia
    have hjmem := chain_next hch himem hr2
    have hja := chain_alive hch j hjmem
    obtain ⟨w, hw, hwl, hwr⟩ := hinv.hinv.witness i j hia hja hr2
    have hwc : w ≠ c := by
      intro he
      rw [he] at hwl
      exact hil hwl.symm
    have hwrest : w ∈ rest := by
      rcases popMin_mem_cases hpop w hw with h | h
      · exact absurd h hwc
      · exact h
    exact ⟨w, hwrest, hwl, hwr⟩
  refine ⟨⟨⟨xs ++ s.arena.length :: ys, hchain2, hAC2, ?_⟩, ?_⟩, hlen_eq, hcount2, ?_, rfl⟩
  · rw [hlen_eq, hcount]
    simp only [List.length_append, List.length_cons]
    push_cast
    omega
  case refine_3 =>
    rw [doMerge_def]
    simp only
    rcases hL : (nodeAt s.arena c.l).left with _ | li <;>
      rcases hR : (nodeAt s.arena c.r).right with _ | ri
    · rw [pushCand_none_l, pushCand_none_r]
      simp
    · rw [pushCand_none_l]
      by_cases hb : ((nodeAt (mergeArena s.arena c) s.arena.length).alive
          && (nodeAt (mergeArena s.arena c) ri).alive) = true
      · rw [pushCand_some _ _ _ _ hb]
        simp
      · rw [pushCand_some_neg _ _ _ _ hb]
        simp
    · rw [pushCand_none_r]
      by_cases hb : ((nodeAt (mergeArena s.arena c) li).alive
          && (nodeAt (mergeArena s.arena c) s.arena.length).alive) = true
      · rw [pushCand_some _ _ _ _ hb]
        simp
      · rw [pushCand_some_neg _ _ _ _ hb]
        simp
    · by_cases hb1 : ((nodeAt (mergeArena s.arena c) li).alive
          && (nodeAt (mergeArena s.arena c) s.arena.length).alive) = true
      · rw [pushCand_some _ _ _ _ hb1]
        by_cases hb2 : ((nodeAt (mergeArena s.arena c) s.arena.length).alive
            && (nodeAt (mergeArena s.arena c) ri).alive) = true
        · rw [pushCand_some _ _ _ _ hb2]
          simp
        · rw [pushCand_some_neg _ _ _ _ hb2]
          simp
      · rw [pushCand_some_neg _ _ _ _ hb1]
        by_cases hb2 : ((nodeAt (mergeArena s.arena c) s.arena.length).alive
            && (nodeAt (mergeArena s.arena c) ri).alive) = true
        · rw [pushCand_some _ _ _ _ hb2]
          simp
        · rw [pushCand_some_neg _ _ _ _ hb2]
          simp
  case refine_2 =>
    rw [doMerge_def]
    simp only
    rcases hL : (nodeAt s.arena c.l).left with _ | li <;>
      rcases hR : (nodeAt s.arena c.r).right with _ | ri
    -- no neighbor on either side: no candidate pushed
    · rw [pushCand_none_l, pushCand_none_r]
      simp only
      refine ⟨?_, ?_, ?_, hrest_nodup, ?_⟩
      · intro d hd
        have := hrest_idx d hd
        omega
      · exact hrest_gain
      · exact hrest_ids
      · intro i j hi hj hr2
        by_cases hilen : i = s.arena.length
        · rw [hilen, hnew_right, hR] at hr2
          simp at hr2
        by_cases hiLi : (nodeAt s.arena c.l).left = some i
        · rw [hL] at hiLi
          simp at hiLi
        · exact hwit_old i j hi hj hr2 hilen hiLi
    -- only a right neighbor: one candidate pushed
    · have hri_mem : ri ∈ ys := by
        rw [hR] at hRight
        exact mem_of_head?_eq hRight.symm
      have hri_aliveA : (nodeAt (mergeArena s.arena c) ri).alive = true := by
        rw [mergeArena_nodeAt_ri hctx hR]
        exact chain_alive hch ri (by simp [hri_mem])
      have hb2 : ((nodeAt (mergeArena s.arena c) s.arena.length).alive
          && (nodeAt (mergeArena s.arena c) ri).alive) = true := by
        rw [anew, hri_aliveA]
        rfl
      rw [pushCand_none_l, pushCand_some _ _ _ _ hb2]
      simp only
      refine ⟨?_, ?_, ?_, ?_, ?_⟩
      · intro d hd
        rcases List.mem_append.mp hd with hd | hd
        · have := hrest_idx d hd
          omega
        · simp only [List.mem_singleton] at hd
          rw [hd]
          have := (hctx.hRr ri hR).1
          constructor <;> simp <;> omega
      · intro d hd
        rcases List.mem_append.mp hd with hd | hd
        · exact hrest_gain d hd
        · simp only [List.mem_singleton] at hd
          rw [hd]
      · intro d hd
        rcases List.mem_append.mp hd with hd | hd
        · have := hrest_ids d hd
          omega
        · simp only [List.mem_singleton] at hd
          rw [hd]
          dsimp only
          omega
      · rw [List.map_append]
        refine List.Nodup.append hrest_nodup (by simp) ?_
        intro x hx hx2
        simp only [List.map_cons, List.map_nil, List.mem_singleton] at hx2
        rw [List.mem_map] at hx
        obtain ⟨d, hd, hdid⟩ := hx
        have := hrest_ids d hd
        omega
      · intro i j hi hj hr2
        by_cases hilen : i = s.arena.length
        · rw [hilen, hnew_right, hR] at hr2
          simp only [Option.some.injEq] at hr2
          refine ⟨⟨-(compute_merge_gain
              (nodeAt (mergeArena s.arena c) s.arena.length).core
              (nodeAt (mergeArena s.arena c) ri).core), s.nextId,
              s.arena.length, ri⟩, by simp, hilen.symm, hr2⟩
        by_cases hiLi : (nodeAt s.arena c.l).left = some i
        · rw [hL] at hiLi
          simp at hiLi
        · obtain ⟨w, hw, hwl, hwr⟩ := hwit_old i j hi hj hr2 hilen hiLi
          exact ⟨w, by simp [hw], hwl, hwr⟩
    -- only a left neighbor: one candidate pushed
    · have hli_mem : li ∈ xs := by
        rw [hL] at hLeft
        cases hxl : xs.getLast? with
        | none => rw [hxl] at hLeft; simp at hLeft
        | some w =>
          rw [hxl] at hLeft
          simp only [Option.some.injEq] at hLeft
          rw [hLeft]
          exact List.mem_of_mem_getLast? hxl
      have hli_aliveA : (nodeAt (mergeArena s.arena c) li).alive = true := by
        rw [mergeArena_nodeAt_li hctx hL]
        exact chain_alive hch li (by simp [hli_mem])
      have hb1 : ((nodeAt (mergeArena s.arena c) li).alive
          && (nodeAt (mergeArena s.arena c) s.arena.length).alive) = true := by
        rw [anew, hli_aliveA]
        rfl
      rw [pushCand_some _ _ _ _ hb1, pushCand_none_r]
      simp only
      refine ⟨?_, ?_, ?_, ?_, ?_⟩
      · intro d hd
        rcases List.mem_append.mp hd with hd | hd
        · have := hrest_idx d hd
          omega
        · simp only [List.mem_singleton] at hd
          rw [hd]
          have := (hctx.hLl li hL).1
          constructor <;> simp <;> omega
      · intro d hd
        rcases List.mem_append.mp hd with hd | hd
        · exact hrest_gain d hd
        · simp only [List.mem_singleton] at hd
          rw [hd]
      · intro d hd
        rcases List.mem_append.mp hd with hd | hd
        · have := hrest_ids d hd
          omega
        · simp only [List.mem_singleton] at hd
          rw [hd]
          dsimp only
          omega
      · rw [List.map_append]
        refine List.Nodup.append hrest_nodup (by simp) ?_
        intro x hx hx2
        simp only [List.map_cons, List.map_nil, List.mem_singleton] at hx2
        rw [List.mem_map] at hx
        obtain ⟨d, hd, hdid⟩ := hx
        have := hrest_ids d hd
        omega
      · intro i j hi hj hr2
        by_cases hilen : i = s.arena.length
        · rw [hilen, hnew_right, hR] at hr2
          simp at hr2
        by_cases hiLi : (nodeAt s.arena c.l).left = some i
        · rw [hL] at hiLi
          simp only [Option.some.injEq] at hiLi
          have hrightA : (nodeAt (mergeArena s.arena c) i).right
              = some s.arena.length := by
            rw [← hiLi, mergeArena_nodeAt_li hctx hL]
          rw [hrightA] at hr2
          simp only [Option.some.injEq] at hr2
          refine ⟨⟨-(compute_merge_gain (nodeAt (mergeArena s.arena c) li).core
              (nodeAt (mergeArena s.arena c) s.arena.length).core), s.nextId,
              li, s.arena.length⟩, by simp, hiLi, hr2⟩
        · obtain ⟨w, hw, hwl, hwr⟩ := hwit_old i j hi hj hr2 hilen hiLi
          exact ⟨w, by simp [hw], hwl, hwr⟩
    -- both neighbors: two candidates pushed
    · have hli_mem : li ∈ xs := by
        rw [hL] at hLeft
        cases hxl : xs.getLast? with
        | none => rw [hxl] at hLeft; simp at hLeft
        | some w =>
          rw [hxl] at hLeft
          simp only [Option.some.injEq] at hLeft
          rw [hLeft]
          exact List.mem_of_mem_getLast? hxl
      have hri_mem : ri ∈ ys := by
        rw [hR] at hRight
        exact mem_of_head?_eq hRight.symm
      have hli_aliveA : (nodeAt (mergeArena s.arena c) li).alive = true := by
        rw [mergeArena_nodeAt_li hctx hL]
        exact chain_alive hch li (by simp [hli_mem])
      have hri_aliveA : (nodeAt (mergeArena s.arena c) ri).alive = true := by
        rw [mergeArena_nodeAt_ri hctx hR]
        exact chain_alive hch ri (by simp [hri_mem])
      have hb1 : ((nodeAt (mergeArena s.arena c) li).alive
          && (nodeAt (mergeArena s.arena c) s.arena.length).alive) = true := by
        rw [anew, hli_aliveA]
        rfl
      have hb2 : ((nodeAt (mergeArena s.arena c) s.arena.length).alive
          && (nodeAt (mergeArena s.arena c) ri).alive) = true := by
        rw [anew, hri_aliveA]
        rfl
      rw [pushCand_some _ _ _ _ hb1, pushCand_some _ _ _ _ hb2]
      simp only
      refine ⟨?_, ?_, ?_, ?_, ?_⟩
      · intro d hd
        rcases List.mem_append.mp hd with hd | hd
        · rcases List.mem_append.mp hd with hd | hd
          · have := hrest_idx d hd
            omega
          · simp only [List.mem_singleton] at hd
            rw [hd]
            have := (hctx.hLl li hL).1
            constructor <;> simp <;> omega
        · simp only [List.mem_singleton] at hd
          rw [hd]
          have := (hctx.hRr ri hR).1
          constructor <;> simp <;> omega
      · intro d hd
        rcases List.mem_append.mp hd with hd | hd
        · rcases List.mem_append.mp hd with hd | hd
          · exact hrest_gain d hd
          · simp only [List.mem_singleton] at hd
            rw [hd]
        · simp only [List.mem_singleton] at hd
          rw [hd]
      · intro d hd
        rcases List.mem_append.mp hd with hd | hd
        · rcases List.mem_append.mp hd with hd | hd
          · have := hrest_ids d hd
            omega
          · simp only [List.mem_singleton] at hd
            rw [hd]
            dsimp only
            omega
        · simp only [List.mem_singleton] at hd
          rw [hd]
          dsimp only
          omega
      · rw [List.map_append, List.map_append]
        refine List.Nodup.append (List.Nodup.append hrest_nodup (by simp) ?_)
          (by simp) ?_
        · intro x hx hx2
          simp only [List.map_cons, List.map_nil, List.mem_singleton] at hx2
          rw [List.mem_map] at hx
          obtain ⟨d, hd, hdid⟩ := hx
          have := hrest_ids d hd
          omega
        · intro x hx hx2
          simp only [List.map_cons, List.map_nil, List.mem_singleton] at hx2
          rcases List.mem_append.mp hx with hx | hx
          · rw [List.mem_map] at hx
            obtain ⟨d, hd, hdid⟩ := hx
            have := hrest_ids d hd
            omega
          · simp only [List.map_cons, List.map_nil, List.mem_singleton] at hx
            omega
      · intro i j hi hj hr2
        by_cases hilen : i = s.arena.length
        · rw [hilen, hnew_right, hR] at hr2
          simp only [Option.some.injEq] at hr2
          refine ⟨⟨-(compute_merge_gain
              (nodeAt (mergeArena s.arena c) s.arena.length).core
              (nodeAt (mergeArena s.arena c) ri).core), s.nextId + 1,
              s.arena.length, ri⟩, by simp, hilen.symm, hr2⟩
        by_cases hiLi : (nodeAt s.arena c.l).left = some i
        · rw [hL] at hiLi
          simp only [Option.some.injEq] at hiLi
          have hrightA : (nodeAt (mergeArena s.arena c) i).right
              = some s.arena.length := by
            rw [← hiLi, mergeArena_nodeAt_li hctx hL]
          rw [hrightA] at hr2
          simp only [Option.some.injEq] at hr2
          refine ⟨⟨-(compute_merge_gain (nodeAt (mergeArena s.arena c) li).core
              (nodeAt (mergeArena s.arena c) s.arena.length).core), s.nextId,
              li, s.arena.length⟩, by simp, hiLi, hr2⟩
        · obtain ⟨w, hw, hwl, hwr⟩ := hwit_old i j hi hj hr2 hilen hiLi
          exact ⟨w, by simp [hw], hwl, hwr⟩

/-! ### Invariant preservation across the remaining loop steps -/

/-- Discarding a stale candidate preserves the driver invariant: a stale
candidate cannot be the witness of any currently-live adjacency. -/
theorem stale_inv {colors : List Color} {s : MState} {c : Cand}
    {rest : List Cand} (hinv : Inv colors s)
    (hpop : popMin s.heap = some (c, rest)) (hst : staleAt s.arena c) :
    Inv colors { s with heap := rest } := by
  obtain ⟨is, hch, hAC, hcount⟩ := hinv.chain
  refine ⟨⟨is, hch, hAC, hcount⟩, ?_, ?_, ?_, ?_, ?_⟩
  · exact fun d hd => hinv.hinv.idx d (popMin_rest_subset hpop d hd)
  · exact fun d hd => hinv.hinv.gain_ok d (popMin_rest_subset hpop d hd)
  · exact fun d hd => hinv.hinv.ids_lt d (popMin_rest_subset hpop d hd)
  · exact rest_nodup_ids hpop hinv.hinv.ids_nodup
  · intro i j hi hj hr2
    dsimp only at hi hj hr2
    obtain ⟨w, hw, hwl, hwr⟩ := hinv.hinv.witness i j hi hj hr2
    have hwc : w ≠ c := by
      intro he
      unfold staleAt at hst
      rw [← he, hwl, hwr] at hst
      rcases hst with h | h | h
      · rw [hi] at h; simp at h
      · rw [hj] at h; simp at h
      · exact h hr2
    rcases popMin_mem_cases hpop w hw with h | h
    · exact absurd h hwc
    · exact ⟨w, h, hwl, hwr⟩

/-- With an empty candidate heap at most one block is alive: two alive chain
entries would give a live adjacency whose witness would have to be queued. -/
theorem count_le_one_of_empty {colors : List Color} {s : MState}
    (hinv : Inv colors s) (hheap : s.heap = []) : s.count ≤ 1 := by
  obtain ⟨is, hch, hAC, hcount⟩ := hinv.chain
  rw [hcount]
  cases is with
  | nil => simp
  | cons i tl =>
    cases tl with
    | nil => simp
    | cons j tl2 =>
      exfalso
      obtain ⟨h1, h2, h3, h4, h5, h6, htail⟩ := hch
      have hj_alive : (nodeAt s.arena j).alive = true := htail.2.1
      have hr2 : (nodeAt s.arena i).right = some j := by
        rw [h4]
        rfl
      obtain ⟨w, hw, _, _⟩ := hinv.hinv.witness i j h2 hj_alive hr2
      rw [hheap] at hw
      simp at hw

/-- Any queued candidate that is not stale has nonpositive cached gain: the
payload invariants make `compute_merge_gain` nonpositive. -/
theorem heap_gain_nonpos {colors : List Color} {s : MState}
    (hinv : Inv colors s) {c : Cand} (hc : c ∈ s.heap)
    (hns : ¬ staleAt s.arena c) : -c.negGain ≤ 0 := by
  obtain ⟨hal, har, _⟩ := not_stale_unpack hns
  obtain ⟨is, hch, hAC, _⟩ := hinv.chain
  have hokl := chain_coreOK hch c.l (hAC c.l hal)
  have hokr := chain_coreOK hch c.r (hAC c.r har)
  have := hinv.hinv.gain_ok c hc
  rw [this]
  simp only [neg_neg]
  exact gain_nonpos hokl.2.2.2.2 hokr.2.2.2.2

/-! ### Step unfolding lemmas for the instrumented loop -/

theorem mergeLoopR_empty {mb : Option ℤ} {fuel : ℕ} {s : MState}
    (h : popMin s.heap = none) :
    mergeLoopR mb (fuel + 1) s = (s, ExitReason.emptyHeap) := by
  simp only [mergeLoopR, h]

theorem mergeLoopR_stale {mb : Option ℤ} {fuel : ℕ} {s : MState} {c : Cand}
    {rest : List Cand} (h : popMin s.heap = some (c, rest))
    (hst : staleAt s.arena c) :
    mergeLoopR mb (fuel + 1) s = mergeLoopR mb fuel { s with heap := rest } := by
  simp only [mergeLoopR, h]
  rw [if_pos hst]

theorem mergeLoopR_gain {mb : Option ℤ} {fuel : ℕ} {s : MState} {c : Cand}
    {rest : List Cand} (h : popMin s.heap = some (c, rest))
    (hst : ¬ staleAt s.arena c)
    (hbrk : (-c.negGain ≤ 0) ∧ budgetOK mb s.count = true) :
    mergeLoopR mb (fuel + 1) s = ({ s with heap := rest }, ExitReason.breakGain) := by
  simp only [mergeLoopR, h]
  rw [if_neg hst, if_pos hbrk]

theorem mergeLoopR_budget {mb : Option ℤ} {fuel : ℕ} {s : MState} {c : Cand}
    {rest : List Cand} (h : popMin s.heap = some (c, rest))
    (hst : ¬ staleAt s.arena c)
    (hbrk : ¬ ((-c.negGain ≤ 0) ∧ budgetOK mb s.count = true))
    (hstop : mb.isSome ∧ budgetOK mb (doMerge s c rest).count = true) :
    mergeLoopR mb (fuel + 1) s = (doMerge s c rest, ExitReason.breakBudget) := by
  simp only [mergeLoopR, h]
  rw [if_neg hst, if_neg hbrk, if_pos hstop]

theorem mergeLoopR_merge {mb : Option ℤ} {fuel : ℕ} {s : MState} {c : Cand}
    {rest : List Cand} (h : popMin s.heap = some (c, rest))
    (hst : ¬ staleAt s.arena c)
    (hbrk : ¬ ((-c.negGain ≤ 0) ∧ budgetOK mb s.count = true))
    (hstop : ¬ (mb.isSome ∧ budgetOK mb (doMerge s c rest).count = true)) :
    mergeLoopR mb (fuel + 1) s = mergeLoopR mb fuel (doMerge s c rest) := by
  simp only [mergeLoopR, h]
  rw [if_neg hst, if_neg hbrk, if_neg hstop]

/-! ### The main loop theorem -/

/-- Everything the claims need about a completed driver loop. -/
structure LoopOut (colors : List Color) (mb : Option ℤ) (s t : MState)
    (reason : ExitReason) : Prop where
  chain : ∃ is, Chain t.arena colors none 0 is ∧ AliveComplete t.arena is ∧
    t.count = is.length
  count_le : t.count ≤ s.count
  budget : ∀ m, mb = some m → t.count ≤ max m 1
  not_fuelOut : reason ≠ ExitReason.fuelOut
  reason_empty : reason = ExitReason.emptyHeap → t.heap = [] ∧ t.count ≤ 1
  reason_gain : reason = ExitReason.breakGain → budgetOK mb t.count = true
  reason_budget : reason = ExitReason.breakBudget →
    mb.isSome = true ∧ budgetOK mb t.count = true
  arena_len : s.arena.length ≤ t.arena.length

theorem mergeLoopR_main (colors : List Color) (mb : Option ℤ) :
    ∀ fuel s, Inv colors s → s.heap.length + 2 * s.count.toNat < fuel →
    LoopOut colors mb s (mergeLoopR mb fuel s).1 (mergeLoopR mb fuel s).2 := by
  intro fuel
  induction fuel with
  | zero => intro s _ h; omega
  | succ fuel ih =>
    intro s hinv hfuel
    cases hpop : popMin s.heap with
    | none =>
      have hheap : s.heap = [] := popMin_eq_none.mp hpop
      rw [mergeLoopR_empty hpop]
      dsimp only
      have hle1 := count_le_one_of_empty hinv hheap
      refine ⟨hinv.chain, le_refl _, ?_, by simp, fun _ => ⟨hheap, hle1⟩,
        by simp, by simp, le_refl _⟩
      intro m _
      have : (1 : ℤ) ≤ max m 1 := le_max_right m 1
      omega
    | some p =>
      obtain ⟨c, rest⟩ := p
      have hrestlen : s.heap.length = rest.length + 1 := popMin_length hpop
      by_cases hst : staleAt s.arena c
      · rw [mergeLoopR_stale hpop hst]
        have hinv2 := stale_inv hinv hpop hst
        have hfuel2 : ({ s with heap := rest } : MState).heap.length
            + 2 * ({ s with heap := rest } : MState).count.toNat < fuel := by
          simp only
          omega
        have hout := ih _ hinv2 hfuel2
        exact ⟨hout.chain, hout.count_le, hout.budget, hout.not_fuelOut,
          hout.reason_empty, hout.reason_gain, hout.reason_budget, hout.arena_len⟩
      · by_cases hbrk : (-c.negGain ≤ 0) ∧ budgetOK mb s.count = true
        · rw [mergeLoopR_gain hpop hst hbrk]
          dsimp only
          refine ⟨hinv.chain, le_refl _, ?_, by simp, by simp, fun _ => hbrk.2,
            by simp, le_refl _⟩
          intro m hm
          dsimp only
          have := hbrk.2
          rw [hm] at this
          simp only [budgetOK, decide_eq_true_eq] at this
          have h3 : s.count ≤ m := by
            simpa using this
          have h2 : (m : ℤ) ≤ max m 1 := le_max_left m 1
          omega
        · obtain ⟨hinv2, hcnt, hge2, hlen, harena⟩ := doMerge_inv hinv hpop hst
          by_cases hstop : mb.isSome ∧ budgetOK mb (doMerge s c rest).count = true
          · rw [mergeLoopR_budget hpop hst hbrk hstop]
            dsimp only
            refine ⟨hinv2.chain, by omega, ?_, by simp, by simp, by simp,
              fun _ => hstop, ?_⟩
            · intro m hm
              have := hstop.2
              rw [hm] at this
              simp only [budgetOK, decide_eq_true_eq] at this
              have h2 : (m : ℤ) ≤ max m 1 := le_max_left m 1
              omega
            · rw [harena, mergeArena_length]
              omega
          · rw [mergeLoopR_merge hpop hst hbrk hstop]
            have hfuel2 : (doMerge s c rest).heap.length
                + 2 * (doMerge s c rest).count.toNat < fuel := by
              rw [hcnt]
              omega
            have hout := ih _ hinv2 hfuel2
            refine ⟨hout.chain, by have := hout.count_le; omega, hout.budget,
              hout.not_fuelOut, hout.reason_empty, hout.reason_gain,
              hout.reason_budget, ?_⟩
            have := hout.arena_len
            rw [harena, mergeArena_length] at this
            omega

/-! ### The initial state satisfies the invariant -/

theorem nodeAt_oob_arena {a : List Node} {k : ℕ} (h : ¬ k < a.length) :
    (nodeAt a k).alive = false := nodeAt_default_alive h

theorem init_inv (rle : List RLE) (T : ℤ) :
    Inv (colorsOf rle) (initState rle T) := by
  have hpart := build_initial_blocks_spec rle T
  have hch := chain_init hpart
  have hlen := linkNodes_length (build_initial_blocks rle T)
  have hseed := seedState_spec (build_initial_blocks rle T)
  constructor
  · refine ⟨List.range (build_initial_blocks rle T).length, hch, ?_, ?_⟩
    · intro k hk
      have hk2 : (nodeAt (linkNodes (build_initial_blocks rle T)) k).alive = true := hk
      by_cases h : k < (linkNodes (build_initial_blocks rle T)).length
      · rw [hlen] at h
        simpa using h
      · rw [nodeAt_oob_arena h] at hk2
        simp at hk2
    · simp [initState, hlen]
  · have hk0 : (initState rle T).nextId = (build_initial_blocks rle T).length - 1 := by
      simp [initState, hseed]
    have hheap : (initState rle T).heap =
        (List.range ((build_initial_blocks rle T).length - 1)).map
          (seedCand (linkNodes (build_initial_blocks rle T))) := by
      simp [initState, hseed]
    rw [show (initState rle T).arena = linkNodes (build_initial_blocks rle T) from rfl,
      hheap, hk0]
    constructor
    · intro c hc
      rw [List.mem_map] at hc
      obtain ⟨i, hi, rfl⟩ := hc
      rw [List.mem_range] at hi
      rw [hlen]
      simp only [seedCand]
      omega
    · intro c hc
      rw [List.mem_map] at hc
      obtain ⟨i, hi, rfl⟩ := hc
      rfl
    · intro c hc
      rw [List.mem_map] at hc
      obtain ⟨i, hi, rfl⟩ := hc
      rw [List.mem_range] at hi
      simpa [seedCand] using hi
    · have : (List.map Cand.id
          ((List.range ((build_initial_blocks rle T).length - 1)).map
            (seedCand (linkNodes (build_initial_blocks rle T)))))
          = List.range ((build_initial_blocks rle T).length - 1) := by
        rw [List.map_map]
        apply List.map_id''
        intro i
        rfl
      rw [this]
      exact List.nodup_range _
    · intro i j hi hj hr2
      have hilt : i < (build_initial_blocks rle T).length := by
        by_contra h
        rw [nodeAt_oob_arena (by rw [hlen]; exact h)] at hi
        simp at hi
      rw [nodeAt_linkNodes hilt] at hr2
      simp only at hr2
      by_cases hnext : i + 1 < (build_initial_blocks rle T).length
      · rw [if_pos hnext] at hr2
        simp only [Option.some.injEq] at hr2
        refine ⟨seedCand (linkNodes (build_initial_blocks rle T)) i, ?_, rfl, ?_⟩
        · rw [List.mem_map]
          exact ⟨i, by rw [List.mem_range]; omega, rfl⟩
        · simp [seedCand, hr2]
      · rw [if_neg hnext] at hr2
        simp at hr2

/-! ### The collection phase returns the chain (or nothing) -/

theorem walkRight_chain {a : List Node} {colors : List Color} :
    ∀ {is : List ℕ} {prev : Option ℕ} {pos : ℕ}, Chain a colors prev pos is →
    ∀ fuel, is.length ≤ fuel →
    walkRight a fuel is.head? = is.map (fun i => (nodeAt a i).core) := by
  intro is
  induction is with
  | nil =>
    intro prev pos _ fuel _
    cases fuel <;> rfl
  | cons i tl ih =>
    intro prev pos h fuel hfuel
    obtain ⟨h1, h2, h3, h4, h5, h6, htail⟩ := h
    cases fuel with
    | zero => simp at hfuel
    | succ f =>
      simp only [List.head?_cons, walkRight, List.map_cons]
      rw [h4]
      rw [ih htail f (by simpa using hfuel)]

theorem getD_zero_of_head {is : List ℕ} (h : is ≠ []) :
    is.head? = some (is.getD 0 0) := by
  cases is with
  | nil => simp at h
  | cons i tl => rfl

theorem walkLeft_chain {a : List Node} {colors : List Color} {is : List ℕ}
    (hch : Chain a colors none 0 is) :
    ∀ u (hu : u < is.length) fuel, u ≤ fuel →
    walkLeft a fuel (is.get ⟨u, hu⟩) = is.getD 0 0 := by
  intro u
  induction u with
  | zero =>
    intro hu fuel _
    have hleft : (nodeAt a (is.get ⟨0, hu⟩)).left = none := by
      have := chain_get_left hch 0 hu
      simpa using this
    have hget : is.get ⟨0, hu⟩ = is.getD 0 0 := by
      cases is with
      | nil => simp at hu
      | cons i tl => rfl
    cases fuel with
    | zero => rw [walkLeft, hget]
    | succ f =>
      rw [walkLeft, hleft, hget]
  | succ v ih =>
    intro hu fuel hfuel
    cases fuel with
    | zero => omega
    | succ f =>
      have hleft := chain_get_left hch (v + 1) hu
      rw [if_neg (Nat.succ_ne_zero v)] at hleft
      simp only [Nat.add_sub_cancel] at hleft
      rw [walkLeft, hleft]
      have hv : v < is.length := by omega
      have hgd : is.getD v 0 = is.get ⟨v, hv⟩ := by
        rw [List.getD, List.get?_eq_getElem?, List.getElem?_eq_getElem hv]
        rfl
      rw [hgd]
      exact ih hv f (by omega)

theorem head_unique_alive {a : List Node} {colors : List Color} {is : List ℕ}
    (hch : Chain a colors none 0 is) {i : ℕ} (hmem : i ∈ is)
    (hleft : (nodeAt a i).left = none) : i = is.getD 0 0 := by
  obtain ⟨⟨u, hu⟩, rfl⟩ := List.mem_iff_get.mp hmem
  have hthis := chain_get_left hch u hu
  cases u with
  | zero =>
    cases is with
    | nil => simp at hu
    | cons x tl => rfl
  | succ v =>
    rw [hthis, if_neg (Nat.succ_ne_zero v)] at hleft
    simp at hleft

theorem collect_cases {a : List Node} {colors : List Color} {is : List ℕ}
    {k0 : ℕ} (hch : Chain a colors none 0 is) (hAC : AliveComplete a is) :
    collect a k0 = is.map (fun i => (nodeAt a i).core) ∨
      (collect a k0 = [] ∧ ∀ i ∈ is, ¬ i < k0) := by
  unfold collect
  cases hfind : (List.range k0).find? (fun i =>
      (nodeAt a i).alive && decide ((nodeAt a i).left = none)) with
  | some i =>
    left
    have hp := List.find?_some hfind
    simp only [Bool.and_eq_true, decide_eq_true_eq] at hp
    have hmem : i ∈ is := hAC i hp.1
    have hne : is ≠ [] := fun h => by rw [h] at hmem; simp at hmem
    have hhead : i = is.getD 0 0 := head_unique_alive hch hmem hp.2
    simp only
    rw [← walkRight_chain hch (a.length + 1)
      (Nat.le_succ_of_le (chain_length_le hch)), getD_zero_of_head hne, ← hhead]
  | none =>
    cases hfind2 : (List.range k0).find? (fun i => (nodeAt a i).alive) with
    | some i =>
      left
      have hp := List.find?_some hfind2
      have hmem : i ∈ is := hAC i hp
      have hne : is ≠ [] := fun h => by rw [h] at hmem; simp at hmem
      obtain ⟨⟨u, hu⟩, rfl⟩ := List.mem_iff_get.mp hmem
      have hwalk := walkLeft_chain hch u hu a.length
        (by have := chain_length_le hch; omega)
      simp only
      rw [hwalk]
      rw [← walkRight_chain hch (a.length + 1)
        (Nat.le_succ_of_le (chain_length_le hch)), getD_zero_of_head hne]
    | none =>
      right
      refine ⟨rfl, ?_⟩
      intro i hmem hik
      have halive := chain_alive hch i hmem
      have := List.find?_eq_none.mp hfind2 i (by simpa using hik)
      simp [halive] at this

/-! ### Top-level facts about `agglomerative_merge` -/

theorem mergeLoop_eq (mb : Option ℤ) (fuel : ℕ) (s : MState) :
    mergeLoop mb fuel s = (mergeLoopR mb fuel s).1 := rfl

theorem agg_eq_run (rle : List RLE) (T : ℤ) (mb : Option ℤ)
    (h : ¬ (build_initial_blocks rle T).isEmpty = true) :
    agglomerative_merge rle T mb
      = collect (mergeLoop mb (loopFuel (initState rle T)) (initState rle T)).arena
          (initState rle T).arena.length := by
  unfold agglomerative_merge
  rw [if_neg h]

theorem init_fuel (rle : List RLE) (T : ℤ) :
    (initState rle T).heap.length + 2 * (initState rle T).count.toNat
      < loopFuel (initState rle T) := by
  unfold loopFuel initState
  simp

theorem init_arena_len (rle : List RLE) (T : ℤ) :
    (initState rle T).arena.length = (build_initial_blocks rle T).length := by
  simp [initState, linkNodes_length]

theorem aliveComplete_init (rle : List RLE) (T : ℤ) :
    AliveComplete (linkNodes (build_initial_blocks rle T))
      (List.range (build_initial_blocks rle T).length) := by
  intro k hk
  by_cases h : k < (linkNodes (build_initial_blocks rle T)).length
  · rw [linkNodes_length] at h
    simpa using h
  · rw [nodeAt_oob_arena h] at hk
    simp at hk

theorem map_core_range (bs : List BlockCore) :
    (List.range bs.length).map (fun i => (nodeAt (linkNodes bs) i).core) = bs := by
  apply List.ext_get
  · simp
  · intro i h1 h2
    have hi : i < bs.length := h2
    simp only [List.get_eq_getElem, List.getElem_map, List.getElem_range]
    rw [nodeAt_linkNodes hi]
    exact getD_eq_getElem hi

/-- Everything the claims need about one full run: every returned block carries
the payload invariants, and the number of returned blocks is bounded by the
initial block count and by any `max_blocks ≥ 1`. -/
theorem agg_run (rle : List RLE) (T : ℤ) (mb : Option ℤ) :
    (∀ b ∈ agglomerative_merge rle T mb, CoreOK (colorsOf rle) b) ∧
    (agglomerative_merge rle T mb).length ≤ (build_initial_blocks rle T).length ∧
    (∀ m, mb = some m → 1 ≤ m →
      ((agglomerative_merge rle T mb).length : ℤ) ≤ m) := by
  by_cases hE : (build_initial_blocks rle T).isEmpty = true
  · unfold agglomerative_merge
    rw [if_pos hE]
    simp
    intro m _ hm
    omega
  · rw [agg_eq_run rle T mb hE]
    have hout := mergeLoopR_main (colorsOf rle) mb (loopFuel (initState rle T))
      (initState rle T) (init_inv rle T) (init_fuel rle T)
    obtain ⟨is, hch, hAC, hcount⟩ := hout.chain
    have hcle := hout.count_le
    have hs0c : (initState rle T).count = ((build_initial_blocks rle T).length : ℤ) := by
      simp [initState, linkNodes_length]
    rcases @collect_cases _ (colorsOf rle) _ ((initState rle T).arena.length) hch hAC
      with hc | ⟨hc, _⟩
    · rw [mergeLoop_eq, hc]
      refine ⟨?_, ?_, ?_⟩
      · intro b hb
        rw [List.mem_map] at hb
        obtain ⟨i, hi, rfl⟩ := hb
        exact chain_coreOK hch i hi
      · rw [List.length_map]
        rw [hcount, hs0c] at hcle
        exact_mod_cast hcle
      · intro m hm h1m
        have := hout.budget m hm
        rw [hcount] at this
        rw [List.length_map]
        have hmax : max m 1 = m := max_eq_left h1m
        rw [hmax] at this
        exact this
    · rw [mergeLoop_eq, hc]
      refine ⟨by simp, by simp, ?_⟩
      intro m _ hm
      simp
      omega

/-- When at most one initial block exists, or the budget is already satisfied
by the initial block count, the driver performs no merge at all and the result
is exactly the initial partition. -/
theorem agg_break_eq_initial (rle : List RLE) (T : ℤ) (mb : Option ℤ)
    (hbud : budgetOK mb ((build_initial_blocks rle T).length : ℤ) = true) :
    agglomerative_merge rle T mb = build_initial_blocks rle T := by
  by_cases hE : (build_initial_blocks rle T).isEmpty = true
  · unfold agglomerative_merge
    rw [if_pos hE]
    rw [List.isEmpty_iff] at hE
    exact hE.symm
  · have hk0 : (build_initial_blocks rle T).length ≠ 0 := by
      rw [List.isEmpty_iff] at hE
      intro h
      exact hE (List.eq_nil_of_length_eq_zero h)
    have hcollect : collect (linkNodes (build_initial_blocks rle T))
        (build_initial_blocks rle T).length = build_initial_blocks rle T := by
      rcases collect_cases (chain_init (build_initial_blocks_spec rle T))
          (aliveComplete_init rle T) with h | ⟨_, hall⟩
      · rw [h, map_core_range]
      · exfalso
        exact hall 0 (by rw [List.mem_range]; omega) (by omega)
    rw [agg_eq_run rle T mb hE]
    have harena0 : (initState rle T).arena = linkNodes (build_initial_blocks rle T) := rfl
    have hcount0 : (initState rle T).count = ((build_initial_blocks rle T).length : ℤ) := by
      simp [initState, linkNodes_length]
    have hfuel : loopFuel (initState rle T)
        = (initState rle T).heap.length + 2 * (initState rle T).arena.length + 1 := rfl
    cases hpop : popMin (initState rle T).heap with
    | none =>
      rw [mergeLoop_eq, hfuel, mergeLoopR_empty hpop]
      dsimp only
      rw [harena0, linkNodes_length]
      exact hcollect
    | some p =>
      obtain ⟨c, rest⟩ := p
      have hseed := seedState_spec (build_initial_blocks rle T)
      have hheap0 : (initState rle T).heap =
          (List.range ((build_initial_blocks rle T).length - 1)).map
            (seedCand (linkNodes (build_initial_blocks rle T))) := by
        simp [initState, hseed]
      have hcmem : c ∈ (initState rle T).heap := popMin_mem hpop
      have hcform : ∃ i, i < (build_initial_blocks rle T).length - 1
          ∧ c = seedCand (linkNodes (build_initial_blocks rle T)) i := by
        rw [hheap0, List.mem_map] at hcmem
        obtain ⟨i, hi, he⟩ := hcmem
        exact ⟨i, by simpa using hi, he.symm⟩
      obtain ⟨i, hi, rfl⟩ := hcform
      have hst : ¬ staleAt (initState rle T).arena
          (seedCand (linkNodes (build_initial_blocks rle T)) i) := by
        intro hst
        unfold staleAt at hst
        rw [harena0] at hst
        simp only [seedCand] at hst
        rw [nodeAt_linkNodes (by omega), nodeAt_linkNodes (by omega)] at hst
        rcases hst with h | h | h
        · simp at h
        · simp at h
        · simp only at h
          rw [if_pos (by omega : i + 1 < (build_initial_blocks rle T).length)] at h
          exact h rfl
      have hg : -(seedCand (linkNodes (build_initial_blocks rle T)) i).negGain ≤ 0 :=
        heap_gain_nonpos (init_inv rle T) hcmem hst
      have hbud2 : budgetOK mb (initState rle T).count = true := by
        rw [hcount0]
        exact hbud
      rw [mergeLoop_eq, hfuel, mergeLoopR_gain hpop hst ⟨hg, hbud2⟩]
      dsimp only
      rw [harena0, linkNodes_length]
      exact hcollect

/-! ### Frame property through the whole loop -/

theorem mergeLoopR_cores (mb : Option ℤ) :
    ∀ fuel s, s.arena.length ≤ ((mergeLoopR mb fuel s).1).arena.length ∧
      ∀ k, k < s.arena.length →
        coreAt ((mergeLoopR mb fuel s).1).arena k = coreAt s.arena k := by
  intro fuel
  induction fuel with
  | zero => exact fun s => ⟨le_refl _, fun k _ => rfl⟩
  | succ fuel ih =>
    intro s
    cases hpop : popMin s.heap with
    | none =>
      rw [mergeLoopR_empty hpop]
      exact ⟨le_refl _, fun k _ => rfl⟩
    | some p =>
      obtain ⟨c, rest⟩ := p
      by_cases hst : staleAt s.arena c
      · rw [mergeLoopR_stale hpop hst]
        exact ih { s with heap := rest }
      · by_cases hbrk : (-c.negGain ≤ 0) ∧ budgetOK mb s.count = true
        · rw [mergeLoopR_gain hpop hst hbrk]
          exact ⟨le_refl _, fun k _ => rfl⟩
        · have harena : (doMerge s c rest).arena = mergeArena s.arena c := rfl
          by_cases hstop : mb.isSome ∧ budgetOK mb (doMerge s c rest).count = true
          · rw [mergeLoopR_budget hpop hst hbrk hstop]
            dsimp only
            rw [harena]
            refine ⟨?_, fun k hk => mergeArena_core s.arena c k hk⟩
            rw [mergeArena_length]
            omega
          · rw [mergeLoopR_merge hpop hst hbrk hstop]
            obtain ⟨ihlen, ihcore⟩ := ih (doMerge s c rest)
            rw [harena] at ihlen ihcore
            constructor
            · rw [mergeArena_length] at ihlen
              omega
            · intro k hk
              rw [ihcore k (by rw [mergeArena_length]; omega),
                mergeArena_core s.arena c k hk]

/-! ### The output depends only on the color sequence -/

theorem innerLoop_colors {rle1 rle2 : List RLE} (T : ℤ) (start : ℕ)
    (h : rle1.map Prod.fst = rle2.map Prod.fst) :
    ∀ fuel i ct cnt,
    innerLoop rle1 T start fuel i ct cnt = innerLoop rle2 T start fuel i ct cnt := by
  have hlen : rle1.length = rle2.length := by
    have := congrArg List.length h
    simpa using this
  intro fuel
  induction fuel with
  | zero => intro i ct cnt; rfl
  | succ fuel ih =>
    intro i ct cnt
    by_cases hc : i < rle1.length ∧ ((ct : ℤ) < T ∨ start = i)
    · have hc2 : i < rle2.length ∧ ((ct : ℤ) < T ∨ start = i) := ⟨hlen ▸ hc.1, hc.2⟩
      rw [innerLoop, innerLoop, dif_pos hc, dif_pos hc2]
      have hcol : (rle1.get ⟨i, hc.1⟩).1 = (rle2.get ⟨i, hc2.1⟩).1 := by
        have h1 : (rle1.map Prod.fst).getD i (0,0,0)
            = (rle2.map Prod.fst).getD i (0,0,0) := by rw [h]
        have e1 : (rle1.map Prod.fst).getD i (0,0,0) = (rle1.get ⟨i, hc.1⟩).1 := by
          simp [List.getD, List.getElem?_eq_getElem
            (show i < (rle1.map Prod.fst).length by simpa using hc.1)]
        have e2 : (rle2.map Prod.fst).getD i (0,0,0) = (rle2.get ⟨i, hc2.1⟩).1 := by
          simp [List.getD, List.getElem?_eq_getElem
            (show i < (rle2.map Prod.fst).length by simpa using hc2.1)]
        rw [← e1, ← e2, h1]
      rw [hcol]
      exact ih (i + 1) (ct + 1) _
    · have hc2 : ¬ (i < rle2.length ∧ ((ct : ℤ) < T ∨ start = i)) := by
        rw [← hlen]
        exact hc
      rw [innerLoop, innerLoop, dif_neg hc, dif_neg hc2]

theorem buildLoop_colors {rle1 rle2 : List RLE} (T : ℤ)
    (h : rle1.map Prod.fst = rle2.map Prod.fst) :
    ∀ fuel i, buildLoop rle1 T fuel i = buildLoop rle2 T fuel i := by
  have hlen : rle1.length = rle2.length := by
    have := congrArg List.length h
    simpa using this
  intro fuel
  induction fuel with
  | zero => intro i; rfl
  | succ fuel ih =>
    intro i
    rw [buildLoop, buildLoop, hlen, innerLoop_colors T i h]
    simp only [ih]

theorem build_colors {rle1 rle2 : List RLE} (T : ℤ)
    (h : rle1.map Prod.fst = rle2.map Prod.fst) :
    build_initial_blocks rle1 T = build_initial_blocks rle2 T := by
  have hlen : rle1.length = rle2.length := by
    have := congrArg List.length h
    simpa using this
  unfold build_initial_blocks
  rw [hlen, buildLoop_colors T h]

theorem agg_colors {rle1 rle2 : List RLE} (T : ℤ) (mb : Option ℤ)
    (h : rle1.map Prod.fst = rle2.map Prod.fst) :
    agglomerative_merge rle1 T mb = agglomerative_merge rle2 T mb := by
  unfold agglomerative_merge initState
  rw [build_colors T h]

/-! ### Exit reason of the driver loop -/

/-- Why the driver loop of one full run stopped. -/
def mergeReason (rle : List RLE) (T : ℤ) (mb : Option ℤ) : ExitReason :=
  (mergeLoopR mb (loopFuel (initState rle T)) (initState rle T)).2

theorem mergeReason_props (rle : List RLE) (T : ℤ) (mb : Option ℤ) :
    (mergeReason rle T mb = ExitReason.emptyHeap ∨
     mergeReason rle T mb = ExitReason.breakGain ∨
     mergeReason rle T mb = ExitReason.breakBudget) ∧
    (mergeReason rle T mb = ExitReason.emptyHeap →
      (mergeLoopR mb (loopFuel (initState rle T)) (initState rle T)).1.heap = []) ∧
    (mergeReason rle T mb = ExitReason.breakGain →
      budgetOK mb
        (mergeLoopR mb (loopFuel (initState rle T)) (initState rle T)).1.count = true) ∧
    (mergeReason rle T mb = ExitReason.breakBudget →
      mb.isSome = true ∧ budgetOK mb
        (mergeLoopR mb (loopFuel (initState rle T)) (initState rle T)).1.count = true) := by
  have hout := mergeLoopR_main (colorsOf rle) mb (loopFuel (initState rle T))
    (initState rle T) (init_inv rle T) (init_fuel rle T)
  refine ⟨?_, fun h => (hout.reason_empty h).1, hout.reason_gain, hout.reason_budget⟩
  have hne := hout.not_fuelOut
  unfold mergeReason
  revert hne
  generalize (mergeLoopR mb (loopFuel (initState rle T)) (initState rle T)).2 = r
  intro hne
  cases r with
  | fuelOut => exact absurd rfl hne
  | emptyHeap => exact Or.inl rfl
  | breakGain => exact Or.inr (Or.inl rfl)
  | breakBudget => exact Or.inr (Or.inr rfl)

/-! ### Small-input scenarios -/

theorem agg_eq_initial_of_le_one (rle : List RLE) (T : ℤ) (mb : Option ℤ)
    (hle : (build_initial_blocks rle T).length ≤ 1) :
    agglomerative_merge rle T mb = build_initial_blocks rle T := by
  by_cases hE : (build_initial_blocks rle T).isEmpty = true
  · unfold agglomerative_merge
    rw [if_pos hE]
    rw [List.isEmpty_iff] at hE
    exact hE.symm
  · have hk0 : (build_initial_blocks rle T).length = 1 := by
      rw [List.isEmpty_iff] at hE
      have : (build_initial_blocks rle T).length ≠ 0 := by
        intro h
        exact hE (List.eq_nil_of_length_eq_zero h)
      omega
    have hseed := seedState_spec (build_initial_blocks rle T)
    have hheap0 : (initState rle T).heap = [] := by
      simp [initState, hseed, hk0]
    have hpop : popMin (initState rle T).heap = none := by
      rw [hheap0]
      rfl
    have hcollect : collect (linkNodes (build_initial_blocks rle T))
        (build_initial_blocks rle T).length = build_initial_blocks rle T := by
      rcases collect_cases (chain_init (build_initial_blocks_spec rle T))
          (aliveComplete_init rle T) with h | ⟨_, hall⟩
      · rw [h, map_core_range]
      · exfalso
        exact hall 0 (by rw [List.mem_range]; omega) (by omega)
    rw [agg_eq_run rle T mb hE, mergeLoop_eq,
      show loopFuel (initState rle T)
        = (initState rle T).heap.length + 2 * (initState rle T).arena.length + 1
        from rfl,
      mergeLoopR_empty hpop]
    dsimp only
    rw [show (initState rle T).arena = linkNodes (build_initial_blocks rle T) from rfl,
      linkNodes_length]
    exact hcollect

theorem build_single (X : Color) (len : ℤ) (T : ℤ) :
    build_initial_blocks [(X, len)] T = [mkBlock 0 0 {X} 1] := by
  have hinner : innerLoop [(X, len)] T 0 1 0 0 0 = (1, 1, {X}) := by
    rw [innerLoop, dif_pos ⟨by norm_num, Or.inr rfl⟩]
    rfl
  unfold build_initial_blocks
  rw [show ([(X, len)] : List RLE).length = 1 from rfl]
  rw [buildLoop, if_pos (by norm_num : 0 < ([(X, len)] : List RLE).length)]
  rw [show ([(X, len)] : List RLE).length = 1 from rfl, hinner]
  rfl

theorem agg_single (X : Color) (len : ℤ) (T : ℤ) (mb : Option ℤ) :
    agglomerative_merge [(X, len)] T mb = [mkBlock 0 0 {X} 1] := by
  rw [agg_eq_initial_of_le_one [(X, len)] T mb (by rw [build_single]; rfl),
    build_single]

/-! ### Relational semantics of the driver loop

`heapq` only guarantees that `heappop` returns *a* smallest entry; the internal
layout of the heap is irrelevant.  `Run` states one loop execution abstractly:
each iteration pops some minimal candidate and proceeds exactly as the source
loop body does.  `mergeLoop` realizes `Run`, and `Run` is deterministic up to a
permutation of the pending heap — in particular the arena, and hence the
collected output, is unique. -/

/-- `c` is a minimal element of `h` (in the heap order `(-gain, merge_id)`) and
`rest` is the rest of `h` in some order. -/
def MinPop (h : List Cand) (c : Cand) (rest : List Cand) : Prop :=
  c ∈ h ∧ (∀ d ∈ h, keyLe c d) ∧ rest.Perm (h.erase c)

/-- Abstract driver loop: any heap implementation popping minimal candidates. -/
inductive Run (mb : Option ℤ) : MState → MState → Prop
  | empty (s : MState) : s.heap = [] → Run mb s s
  | stale (s : MState) (c : Cand) (rest : List Cand) (t : MState) :
      MinPop s.heap c rest → staleAt s.arena c →
      Run mb { s with heap := rest } t → Run mb s t
  | stopGain (s : MState) (c : Cand) (rest : List Cand) :
      MinPop s.heap c rest → ¬ staleAt s.arena c →
      (-c.negGain ≤ 0) ∧ budgetOK mb s.count = true →
      Run mb s { s with heap := rest }
  | stopBudget (s : MState) (c : Cand) (rest : List Cand) :
      MinPop s.heap c rest → ¬ staleAt s.arena c →
      ¬ ((-c.negGain ≤ 0) ∧ budgetOK mb s.count = true) →
      mb.isSome ∧ budgetOK mb (doMerge s c rest).count = true →
      Run mb s (doMerge s c rest)
  | next (s : MState) (c : Cand) (rest : List Cand) (t : MState) :
      MinPop s.heap c rest → ¬ staleAt s.arena c →
      ¬ ((-c.negGain ≤ 0) ∧ budgetOK mb s.count = true) →
      ¬ (mb.isSome ∧ budgetOK mb (doMerge s c rest).count = true) →
      Run mb (doMerge s c rest) t → Run mb s t

theorem popMin_MinPop {h : List Cand} {c : Cand} {rest : List Cand}
    (hpop : popMin h = some (c, rest)) : MinPop h c rest := by
  refine ⟨popMin_mem hpop, popMin_min hpop, ?_⟩
  have hperm := popMin_perm hpop
  exact ((hperm.erase c).trans (by rw [List.erase_cons_head])).symm

/-- The concrete loop is one abstract run. -/
theorem mergeLoop_run (mb : Option ℤ) (colors : List Color) :
    ∀ fuel s, Inv colors s → s.heap.length + 2 * s.count.toNat < fuel →
      Run mb s (mergeLoop mb fuel s) := by
  intro fuel
  induction fuel with
  | zero => intro s _ h; omega
  | succ fuel ih =>
    intro s hinv hfuel
    cases hpop : popMin s.heap with
    | none =>
      rw [mergeLoop_eq, mergeLoopR_empty hpop]
      exact Run.empty s (popMin_eq_none.mp hpop)
    | some p =>
      obtain ⟨c, rest⟩ := p
      have hmp := popMin_MinPop hpop
      have hrestlen : s.heap.length = rest.length + 1 := popMin_length hpop
      by_cases hst : staleAt s.arena c
      · rw [mergeLoop_eq, mergeLoopR_stale hpop hst, ← mergeLoop_eq]
        refine Run.stale s c rest _ hmp hst
          (ih _ (stale_inv hinv hpop hst) ?_)
        simp only
        omega
      · by_cases hbrk : (-c.negGain ≤ 0) ∧ budgetOK mb s.count = true
        · rw [mergeLoop_eq, mergeLoopR_gain hpop hst hbrk]
          exact Run.stopGain s c rest hmp hst hbrk
        · obtain ⟨hinv2, hcnt, hge2, hlen, -⟩ := doMerge_inv hinv hpop hst
          by_cases hstop : mb.isSome ∧ budgetOK mb (doMerge s c rest).count = true
          · rw [mergeLoop_eq, mergeLoopR_budget hpop hst hbrk hstop]
            exact Run.stopBudget s c rest hmp hst hbrk hstop
          · rw [mergeLoop_eq, mergeLoopR_merge hpop hst hbrk hstop, ← mergeLoop_eq]
            refine Run.next s c rest _ hmp hst hbrk hstop (ih _ hinv2 ?_)
            rw [hcnt]
            omega

/-! ### Determinism of the abstract loop up to heap permutation -/

/-- Two driver states that agree except possibly on the heap's internal order. -/
def SEquiv (s₁ s₂ : MState) : Prop :=
  s₁.arena = s₂.arena ∧ s₁.nextId = s₂.nextId ∧ s₁.count = s₂.count ∧
    s₁.heap.Perm s₂.heap

/-- Heap entries carry pairwise-distinct `merge_id`s below the counter. -/
def IdsOK (s : MState) : Prop :=
  (s.heap.map Cand.id).Nodup ∧ ∀ c ∈ s.heap, c.id < s.nextId

theorem id_inj {h : List Cand} (hnd : (h.map Cand.id).Nodup) {a b : Cand}
    (ha : a ∈ h) (hb : b ∈ h) (hid : a.id = b.id) : a = b :=
  List.inj_on_of_nodup_map hnd ha hb hid

/-- Minimal candidates of permuted heaps with distinct ids coincide, and the
leftovers are permutations of each other. -/
theorem minPop_unique {h₁ h₂ : List Cand} {c₁ c₂ : Cand} {r₁ r₂ : List Cand}
    (hp : h₁.Perm h₂) (hnd : (h₁.map Cand.id).Nodup)
    (m₁ : MinPop h₁ c₁ r₁) (m₂ : MinPop h₂ c₂ r₂) :
    c₁ = c₂ ∧ r₁.Perm r₂ := by
  obtain ⟨hm₁, hmin₁, hr₁⟩ := m₁
  obtain ⟨hm₂, hmin₂, hr₂⟩ := m₂
  have hm₂h₁ : c₂ ∈ h₁ := hp.symm.subset hm₂
  have hm₁h₂ : c₁ ∈ h₂ := hp.subset hm₁
  obtain ⟨-, hid⟩ := keyLe_antisymm (hmin₁ c₂ hm₂h₁) (hmin₂ c₁ hm₁h₂)
  have hcc : c₁ = c₂ := id_inj hnd hm₁ hm₂h₁ hid
  subst hcc
  exact ⟨rfl, hr₁.trans ((hp.erase c₁).trans hr₂.symm)⟩

theorem idsOK_rest {s : MState} {c : Cand} {rest : List Cand}
    (hm : MinPop s.heap c rest) (hok : IdsOK s) :
    IdsOK { s with heap := rest } := by
  obtain ⟨-, -, hperm⟩ := hm
  obtain ⟨hnd, hlt⟩ := hok
  constructor
  · have h1 : (rest.map Cand.id).Perm ((s.heap.erase c).map Cand.id) :=
      hperm.map _
    have h2 : ((s.heap.erase c).map Cand.id).Sublist (s.heap.map Cand.id) :=
      (List.erase_sublist c s.heap).map _
    exact h1.nodup_iff.mpr (List.Nodup.sublist h2 hnd)
  · intro d hd
    exact hlt d (List.mem_of_mem_erase (hperm.subset hd))

theorem pushCand_ids (a : List Node) (st : List Cand × ℕ) (l r : Option ℕ)
    (hnd : (st.1.map Cand.id).Nodup) (hlt : ∀ d ∈ st.1, d.id < st.2) :
    ((pushCand a st l r).1.map Cand.id).Nodup ∧
      (∀ d ∈ (pushCand a st l r).1, d.id < (pushCand a st l r).2) := by
  match l, r with
  | none, _ => exact ⟨hnd, hlt⟩
  | some li, none =>
    rw [pushCand_none_r]
    exact ⟨hnd, hlt⟩
  | some li, some ri =>
    by_cases hb : ((nodeAt a li).alive && (nodeAt a ri).alive) = true
    · rw [pushCand_some a st li ri hb]
      constructor
      · simp only [List.map_append, List.map_cons, List.map_nil]
        refine hnd.append (List.nodup_singleton _) ?_
        intro x hx hx2
        simp only [List.mem_singleton] at hx2
        subst hx2
        obtain ⟨d, hd, hdid⟩ := List.mem_map.mp hx
        exact absurd hdid (by have := hlt d hd; omega)
      · intro d hd
        rw [List.mem_append] at hd
        cases hd with
        | inl h => have := hlt d h; simp only; omega
        | inr h =>
          simp only [List.mem_singleton] at h
          subst h
          simp only
          omega
    · rw [pushCand_some_neg a st li ri hb]
      exact ⟨hnd, hlt⟩

theorem idsOK_doMerge {s : MState} {c : Cand} {rest : List Cand}
    (hm : MinPop s.heap c rest) (hok : IdsOK s) : IdsOK (doMerge s c rest) := by
  have h0 := idsOK_rest hm hok
  obtain ⟨hnd0, hlt0⟩ := h0
  simp only at hnd0 hlt0
  obtain ⟨hnd1, hlt1⟩ := pushCand_ids (mergeArena s.arena c) (rest, s.nextId)
    (nodeAt s.arena c.l).left (some s.arena.length) hnd0 hlt0
  obtain ⟨hnd2, hlt2⟩ := pushCand_ids (mergeArena s.arena c)
    (pushCand (mergeArena s.arena c) (rest, s.nextId)
      (nodeAt s.arena c.l).left (some s.arena.length))
    (some s.arena.length) (nodeAt s.arena c.r).right hnd1 hlt1
  exact ⟨hnd2, hlt2⟩

theorem pushCand_congr (a : List Node) (st₁ st₂ : List Cand × ℕ) (l r : Option ℕ)
    (hp : st₁.1.Perm st₂.1) (hn : st₁.2 = st₂.2) :
    (pushCand a st₁ l r).1.Perm (pushCand a st₂ l r).1 ∧
      (pushCand a st₁ l r).2 = (pushCand a st₂ l r).2 := by
  match l, r with
  | none, _ => exact ⟨hp, hn⟩
  | some li, none =>
    rw [pushCand_none_r, pushCand_none_r]
    exact ⟨hp, hn⟩
  | some li, some ri =>
    by_cases hb : ((nodeAt a li).alive && (nodeAt a ri).alive) = true
    · rw [pushCand_some a st₁ li ri hb, pushCand_some a st₂ li ri hb, hn]
      exact ⟨hp.append_right _, rfl⟩
    · rw [pushCand_some_neg a st₁ li ri hb, pushCand_some_neg a st₂ li ri hb]
      exact ⟨hp, hn⟩

theorem doMerge_congr {s₁ s₂ : MState} (c : Cand) {r₁ r₂ : List Cand}
    (ha : s₁.arena = s₂.arena) (hn : s₁.nextId = s₂.nextId)
    (hc : s₁.count = s₂.count) (hr : r₁.Perm r₂) :
    SEquiv (doMerge s₁ c r₁) (doMerge s₂ c r₂) := by
  rw [doMerge_def, doMerge_def]
  unfold SEquiv
  dsimp only
  rw [ha, hn, hc]
  obtain ⟨hp1, he1⟩ := pushCand_congr (mergeArena s₂.arena c)
    (r₁, s₂.nextId) (r₂, s₂.nextId)
    (nodeAt s₂.arena c.l).left (some s₂.arena.length) hr rfl
  obtain ⟨hp2, he2⟩ := pushCand_congr (mergeArena s₂.arena c)
    (pushCand (mergeArena s₂.arena c) (r₁, s₂.nextId)
      (nodeAt s₂.arena c.l).left (some s₂.arena.length))
    (pushCand (mergeArena s₂.arena c) (r₂, s₂.nextId)
      (nodeAt s₂.arena c.l).left (some s₂.arena.length))
    (some s₂.arena.length) (nodeAt s₂.arena c.r).right hp1 he1
  exact ⟨rfl, he2, rfl, hp2⟩

theorem sequiv_heap_ne {s s₂ : MState} {c : Cand} {rest : List Cand}
    (hm : MinPop s.heap c rest) (heq : SEquiv s s₂) : s₂.heap ≠ [] := by
  intro hnil
  have : c ∈ s₂.heap := heq.2.2.2.subset hm.1
  rw [hnil] at this
  simp at this

/-- Determinism of the abstract loop: runs from equivalent states with
well-formed ids end in equivalent states. -/
theorem run_unique (mb : Option ℤ) :
    ∀ s₁ t₁, Run mb s₁ t₁ → ∀ s₂ t₂, Run mb s₂ t₂ →
      SEquiv s₁ s₂ → IdsOK s₁ → SEquiv t₁ t₂ := by
  intro s₁ t₁ h₁
  induction h₁ with
  | empty s hheap =>
    intro s₂ t₂ h₂ heq hok
    cases h₂ with
    | empty _ _ => exact heq
    | stale s₂ c₂ rest₂ t₂ hm₂ _ _ =>
      exfalso
      have : c₂ ∈ s.heap := heq.2.2.2.symm.subset hm₂.1
      rw [hheap] at this
      simp at this
    | stopGain s₂ c₂ rest₂ hm₂ _ _ =>
      exfalso
      have : c₂ ∈ s.heap := heq.2.2.2.symm.subset hm₂.1
      rw [hheap] at this
      simp at this
    | stopBudget s₂ c₂ rest₂ hm₂ _ _ _ =>
      exfalso
      have : c₂ ∈ s.heap := heq.2.2.2.symm.subset hm₂.1
      rw [hheap] at this
      simp at this
    | next s₂ c₂ rest₂ t₂' hm₂ _ _ _ _ =>
      exfalso
      have : c₂ ∈ s.heap := heq.2.2.2.symm.subset hm₂.1
      rw [hheap] at this
      simp at this
  | stale s c rest t hm hst hrun ih =>
    intro s₂ t₂ h₂ heq hok
    cases h₂ with
    | empty _ hheap₂ => exact absurd hheap₂ (sequiv_heap_ne hm heq)
    | stale s₂ c₂ rest₂ t₂ hm₂ hst₂ hrun₂ =>
      obtain ⟨hcc, hrr⟩ := minPop_unique heq.2.2.2 hok.1 hm hm₂
      exact ih _ _ hrun₂ ⟨heq.1, heq.2.1, heq.2.2.1, hrr⟩ (idsOK_rest hm hok)
    | stopGain s₂ c₂ rest₂ hm₂ hst₂ _ =>
      obtain ⟨hcc, -⟩ := minPop_unique heq.2.2.2 hok.1 hm hm₂
      exact absurd (heq.1 ▸ hcc ▸ hst) hst₂
    | stopBudget s₂ c₂ rest₂ hm₂ hst₂ _ _ =>
      obtain ⟨hcc, -⟩ := minPop_unique heq.2.2.2 hok.1 hm hm₂
      exact absurd (heq.1 ▸ hcc ▸ hst) hst₂
    | next s₂ c₂ rest₂ t₂' hm₂ hst₂ _ _ _ =>
      obtain ⟨hcc, -⟩ := minPop_unique heq.2.2.2 hok.1 hm hm₂
      exact absurd (heq.1 ▸ hcc ▸ hst) hst₂
  | stopGain s c rest hm hst hbrk =>
    intro s₂ t₂ h₂ heq hok
    cases h₂ with
    | empty _ hheap₂ => exact absurd hheap₂ (sequiv_heap_ne hm heq)
    | stale s₂ c₂ rest₂ t₂ hm₂ hst₂ _ =>
      obtain ⟨hcc, -⟩ := minPop_unique heq.2.2.2 hok.1 hm hm₂
      exact absurd (heq.1 ▸ hcc ▸ hst₂) hst
    | stopGain s₂ c₂ rest₂ hm₂ _ _ =>
      obtain ⟨hcc, hrr⟩ := minPop_unique heq.2.2.2 hok.1 hm hm₂
      exact ⟨heq.1, heq.2.1, heq.2.2.1, hrr⟩
    | stopBudget s₂ c₂ rest₂ hm₂ hst₂ hbrk₂ _ =>
      obtain ⟨hcc, -⟩ := minPop_unique heq.2.2.2 hok.1 hm hm₂
      exact absurd ⟨hcc ▸ hbrk.1, heq.2.2.1 ▸ hbrk.2⟩ hbrk₂
    | next s₂ c₂ rest₂ t₂' hm₂ hst₂ hbrk₂ _ _ =>
      obtain ⟨hcc, -⟩ := minPop_unique heq.2.2.2 hok.1 hm hm₂
      exact absurd ⟨hcc ▸ hbrk.1, heq.2.2.1 ▸ hbrk.2⟩ hbrk₂
  | stopBudget s c rest hm hst hbrk hstop =>
    intro s₂ t₂ h₂ heq hok
    cases h₂ with
    | empty _ hheap₂ => exact absurd hheap₂ (sequiv_heap_ne hm heq)
    | stale s₂ c₂ rest₂ t₂ hm₂ hst₂ _ =>
      obtain ⟨hcc, -⟩ := minPop_unique heq.2.2.2 hok.1 hm hm₂
      exact absurd (heq.1 ▸ hcc ▸ hst₂) hst
    | stopGain s₂ c₂ rest₂ hm₂ _ hbrk₂ =>
      obtain ⟨hcc, -⟩ := minPop_unique heq.2.2.2 hok.1 hm hm₂
      exact absurd ⟨hcc ▸ hbrk₂.1, heq.2.2.1 ▸ hbrk₂.2⟩ hbrk
    | stopBudget s₂ c₂ rest₂ hm₂ _ _ _ =>
      obtain ⟨hcc, hrr⟩ := minPop_unique heq.2.2.2 hok.1 hm hm₂
      subst hcc
      exact doMerge_congr c heq.1 heq.2.1 heq.2.2.1 hrr
    | next s₂ c₂ rest₂ t₂' hm₂ _ _ hstop₂ _ =>
      obtain ⟨hcc, -⟩ := minPop_unique heq.2.2.2 hok.1 hm hm₂
      subst hcc
      refine absurd ⟨hstop.1, ?_⟩ hstop₂
      have h1 : (doMerge s₂ c rest₂).count = s₂.count - 1 := rfl
      have h2 : (doMerge s c rest).count = s.count - 1 := rfl
      rw [h1, ← heq.2.2.1, ← h2]
      exact hstop.2
  | next s c rest t hm hst hbrk hstop hrun ih =>
    intro s₂ t₂ h₂ heq hok
    cases h₂ with
    | empty _ hheap₂ => exact absurd hheap₂ (sequiv_heap_ne hm heq)
    | stale s₂ c₂ rest₂ t₂ hm₂ hst₂ _ =>
      obtain ⟨hcc, -⟩ := minPop_unique heq.2.2.2 hok.1 hm hm₂
      exact absurd (heq.1 ▸ hcc ▸ hst₂) hst
    | stopGain s₂ c₂ rest₂ hm₂ _ hbrk₂ =>
      obtain ⟨hcc, -⟩ := minPop_unique heq.2.2.2 hok.1 hm hm₂
      exact absurd ⟨hcc ▸ hbrk₂.1, heq.2.2.1 ▸ hbrk₂.2⟩ hbrk
    | stopBudget s₂ c₂ rest₂ hm₂ _ _ hstop₂ =>
      obtain ⟨hcc, -⟩ := minPop_unique heq.2.2.2 hok.1 hm hm₂
      subst hcc
      refine absurd ⟨hstop₂.1, ?_⟩ hstop
      have h1 : (doMerge s₂ c rest₂).count = s₂.count - 1 := rfl
      have h2 : (doMerge s c rest).count = s.count - 1 := rfl
      rw [h2, heq.2.2.1, ← h1]
      exact hstop₂.2
    | next s₂ c₂ rest₂ t₂' hm₂ _ _ _ hrun₂ =>
      obtain ⟨hcc, hrr⟩ := minPop_unique heq.2.2.2 hok.1 hm hm₂
      subst hcc
      exact ih _ _ hrun₂ (doMerge_congr c heq.1 heq.2.1 heq.2.2.1 hrr)
        (idsOK_doMerge hm hok)

/-! ### The abstract input/output relation of `agglomerative_merge` -/

/-- The end-to-end relation: `out` is a possible output of
`agglomerative_merge(rle, T, mb)` under *some* admissible heap behavior. -/
def AggRun (rle : List RLE) (T : ℤ) (mb : Option ℤ) (out : List BlockCore) :
    Prop :=
  if (build_initial_blocks rle T).isEmpty = true then out = []
  else ∃ t, Run mb (initState rle T) t ∧
    out = collect t.arena (initState rle T).arena.length

theorem agg_AggRun (rle : List RLE) (T : ℤ) (mb : Option ℤ) :
    AggRun rle T mb (agglomerative_merge rle T mb) := by
  unfold AggRun
  by_cases hE : (build_initial_blocks rle T).isEmpty = true
  · rw [if_pos hE]
    unfold agglomerative_merge
    rw [if_pos hE]
  · rw [if_neg hE]
    exact ⟨mergeLoop mb (loopFuel (initState rle T)) (initState rle T),
      mergeLoop_run mb (colorsOf rle) _ _ (init_inv rle T) (init_fuel rle T),
      agg_eq_run rle T mb hE⟩

theorem aggRun_unique (rle : List RLE) (T : ℤ) (mb : Option ℤ)
    {out₁ out₂ : List BlockCore}
    (h₁ : AggRun rle T mb out₁) (h₂ : AggRun rle T mb out₂) : out₁ = out₂ := by
  unfold AggRun at h₁ h₂
  by_cases hE : (build_initial_blocks rle T).isEmpty = true
  · rw [if_pos hE] at h₁ h₂
    rw [h₁, h₂]
  · rw [if_neg hE] at h₁ h₂
    obtain ⟨t₁, hr₁, ho₁⟩ := h₁
    obtain ⟨t₂, hr₂, ho₂⟩ := h₂
    have hids : IdsOK (initState rle T) :=
      ⟨(init_inv rle T).hinv.ids_nodup, (init_inv rle T).hinv.ids_lt⟩
    have hteq := run_unique mb _ _ hr₁ _ _ hr₂
      ⟨rfl, rfl, rfl, List.Perm.refl _⟩ hids
    rw [ho₁, ho₂, hteq.1]

/-! ## The claims -/

/-- C1: the coverage invariant fails on the code.  On the two-entry input
`[((0,0,0),1), ((1,1,1),1)]` with `target_measure = 1` and `max_blocks = 1`,
the budget forces the two initial blocks to merge; the merged block (arena
index 2) is alive and tiles `[0, 2)`, but the collection phase scans only the
*initial* blocks (`for b in blocks`), finds none alive, and returns the empty
list — which covers nothing. -/
theorem C1_coverage_violated :
    agglomerative_merge [((0,0,0), 1), ((1,1,1), 1)] 1 (some 1) = [] ∧
    ((mergeLoop (some 1)
        (loopFuel (initState [((0,0,0), 1), ((1,1,1), 1)] 1))
        (initState [((0,0,0), 1), ((1,1,1), 1)] 1)).arena.map Node.alive)
      = [false, false, true] ∧
    coreAt (mergeLoop (some 1)
        (loopFuel (initState [((0,0,0), 1), ((1,1,1), 1)] 1))
        (initState [((0,0,0), 1), ((1,1,1), 1)] 1)).arena 2
      = mkBlock 0 1 {(0,0,0), (1,1,1)} 2 := by decide

/-- C2 (counterexample): `total` does **not** sum the run-lengths.  On the
single-entry input `[((7,7,7), 5)]` the returned block has `total = 1`
(one RLE entry) while the sum of run-lengths is `5`. -/
theorem C2_cex_total_not_run_lengths :
    ((agglomerative_merge [((7,7,7), 5)] 5000 none).map BlockCore.total).sum = 1 ∧
    (([((7,7,7), 5)] : List RLE).map Prod.snd).sum = 5 ∧
    (1 : ℤ) ≠ 5 := by decide

/-- C2 (amended): `total` counts RLE **entries**, not run-lengths: every
returned block's `total` is the size of its index range, and (shown for the
unconstrained run `max_blocks = None`) the totals sum to the number of input
entries. -/
theorem C2_total_counts_entries (rle : List RLE) (T : ℤ) (mb : Option ℤ) :
    (∀ b ∈ agglomerative_merge rle T mb, b.total = b.endIdx + 1 - b.start) ∧
    (mb = none →
      ((agglomerative_merge rle T mb).map BlockCore.total).sum = rle.length) := by
  constructor
  · intro b hb
    exact ((agg_run rle T mb).1 b hb).2.2.1
  · intro hmb
    subst hmb
    rw [agg_break_eq_initial rle T none rfl]
    have := PartitionFrom_sum_total (colorsOf rle)
      (build_initial_blocks rle T) 0 (build_initial_blocks_spec rle T)
    rw [this]
    simp [colorsOf]

/-- Witness for C2 at the input `[((0,0,0), 2), ((1,1,1), 3)]`. -/
theorem C2_witness :
    mkBlock 0 0 {(0,0,0)} 1
      ∈ agglomerative_merge [((0,0,0), 2), ((1,1,1), 3)] 1 none ∧
    (mkBlock 0 0 {(0,0,0)} 1).total
      = (mkBlock 0 0 {(0,0,0)} 1).endIdx + 1 - (mkBlock 0 0 {(0,0,0)} 1).start ∧
    ((agglomerative_merge [((0,0,0), 2), ((1,1,1), 3)] 1 none).map
        BlockCore.total).sum = 2 :=
  ⟨by decide,
   (C2_total_counts_entries [((0,0,0), 2), ((1,1,1), 3)] 1 none).1 _ (by decide),
   by rw [(C2_total_counts_entries [((0,0,0), 2), ((1,1,1), 3)] 1 none).2 rfl]; rfl⟩

/-- C3 (counterexample): the `counter` entry of a block is **not** the sum of
run-lengths.  On `[((7,7,7), 5)]` the claim predicts one block with frequency
`{X: 5}` and dominant count 5; the code returns frequency `{X: 1}` and
dominant count 1. -/
theorem C3_cex_frequency_not_run_lengths :
    agglomerative_merge [((7,7,7), 5)] 5000 none = [mkBlock 0 0 {(7,7,7)} 1] ∧
    (mkBlock 0 0 {(7,7,7)} 1).counter.count (7,7,7) = 1 ∧
    (mkBlock 0 0 {(7,7,7)} 1).inherited = 1 ∧
    (1 : ℕ) ≠ 5 := by decide

/-- C3 (amended): `counter` assigns to each color the number of RLE
**entries** of that color in the block's range (the multiset of colors of the
range), `inherited` is the maximal such count, and the single-entry input
`[(X, len)]` yields exactly one block `[0,0]` with frequency `{X: 1}` and
dominant count 1, for every `target_measure` and `max_blocks`. -/
theorem C3_frequency_counts_entries (rle : List RLE) (T : ℤ) (mb : Option ℤ) :
    (∀ b ∈ agglomerative_merge rle T mb,
      b.counter = sliceMs (colorsOf rle) b.start (b.endIdx + 1 - b.start) ∧
      b.inherited = maxCount b.counter) ∧
    (∀ X : Color, ∀ len : ℤ,
      agglomerative_merge [(X, len)] T mb = [mkBlock 0 0 {X} 1]) := by
  refine ⟨?_, fun X len => agg_single X len T mb⟩
  intro b hb
  have h := (agg_run rle T mb).1 b hb
  exact ⟨h.2.2.2.1, h.2.2.2.2⟩

/-- Witness for C3 at the input `[((0,0,0), 2)]`. -/
theorem C3_witness :
    mkBlock 0 0 {(0,0,0)} 1 ∈ agglomerative_merge [((0,0,0), 2)] 5 none ∧
    ((mkBlock 0 0 {(0,0,0)} 1).counter
        = sliceMs (colorsOf [((0,0,0), 2)]) (mkBlock 0 0 {(0,0,0)} 1).start
            ((mkBlock 0 0 {(0,0,0)} 1).endIdx + 1
              - (mkBlock 0 0 {(0,0,0)} 1).start) ∧
      (mkBlock 0 0 {(0,0,0)} 1).inherited
        = maxCount (mkBlock 0 0 {(0,0,0)} 1).counter) ∧
    agglomerative_merge [((1,2,3), 9)] 5 none = [mkBlock 0 0 {(1,2,3)} 1] :=
  ⟨by decide,
   (C3_frequency_counts_entries [((0,0,0), 2)] 5 none).1 _ (by decide),
   (C3_frequency_counts_entries [((1,2,3), 9)] 5 none).2 (1,2,3) 9⟩

/-- C4: a budget at least as large as the initial block count is a no-op:
the result is identical to `max_blocks = None`.  (Indeed no merge happens in
either run, because `compute_merge_gain` is never positive — see
`gain_nonpos` — so the strictly-positive-gain merges the claim allows for are
vacuous.) -/
theorem C4_large_budget_equals_none (rle : List RLE) (T : ℤ) (m : ℤ)
    (h : ((build_initial_blocks rle T).length : ℤ) ≤ m) :
    agglomerative_merge rle T (some m) = agglomerative_merge rle T none := by
  rw [agg_break_eq_initial rle T (some m)
      (by simp only [budgetOK, decide_eq_true_eq]; exact h),
    agg_break_eq_initial rle T none rfl]

/-- Witness for C4 at `[((0,0,0), 1), ((1,1,1), 1)]`, `m = 5`. -/
theorem C4_witness :
    ((build_initial_blocks [((0,0,0), 1), ((1,1,1), 1)] 1).length : ℤ) ≤ 5 ∧
    agglomerative_merge [((0,0,0), 1), ((1,1,1), 1)] 1 (some 5)
      = agglomerative_merge [((0,0,0), 1), ((1,1,1), 1)] 1 none :=
  ⟨by decide, C4_large_budget_equals_none [((0,0,0), 1), ((1,1,1), 1)] 1 5 (by decide)⟩

/-- C5 (counterexample): no validation exists.  `agglomerative_merge` returns
its normal result for `target_measure = 0` (with blocks built, contradicting
"fails before any block is built"), for `max_blocks = -1`, and for a negative
run-length: no error path exists in the code. -/
theorem C5_cex_no_validation :
    agglomerative_merge [((0,0,0), 1)] 0 none = [mkBlock 0 0 {(0,0,0)} 1] ∧
    build_initial_blocks [((0,0,0), 1)] 0 ≠ [] ∧
    agglomerative_merge [((0,0,0), 1)] 5000 (some (-1)) = [mkBlock 0 0 {(0,0,0)} 1] ∧
    agglomerative_merge [((0,0,0), -3)] 5000 none = [mkBlock 0 0 {(0,0,0)} 1] := by
  decide

/-- C5 (amended): `agglomerative_merge` performs no input validation and never
fails: it is a total function that ignores the run-lengths entirely — two
inputs with the same color sequence give identical results for every
`target_measure` and `max_blocks`, whatever their run-lengths. -/
theorem C5_no_validation (rle1 rle2 : List RLE) (T : ℤ) (mb : Option ℤ)
    (h : rle1.map Prod.fst = rle2.map Prod.fst) :
    agglomerative_merge rle1 T mb = agglomerative_merge rle2 T mb :=
  agg_colors T mb h

/-- Witness for C5: run-lengths `5` and `-7` of the same color are
indistinguishable. -/
theorem C5_witness :
    ([((0,0,0), 5)] : List RLE).map Prod.fst
      = ([((0,0,0), -7)] : List RLE).map Prod.fst ∧
    agglomerative_merge [((0,0,0), 5)] 10 none
      = agglomerative_merge [((0,0,0), -7)] 10 none :=
  ⟨by decide, C5_no_validation [((0,0,0), 5)] [((0,0,0), -7)] 10 none (by decide)⟩

/-- C6: monotonic reduction.  The number of returned blocks never exceeds the
number of initial blocks, and with a budget `max_blocks = m ≥ 1` it also never
exceeds `m` (in particular when the initial partition has at least `m`
blocks). -/
theorem C6_monotonic_reduction (rle : List RLE) (T : ℤ) (mb : Option ℤ) :
    (agglomerative_merge rle T mb).length ≤ (build_initial_blocks rle T).length ∧
    (∀ m : ℤ, mb = some m → 1 ≤ m →
      ((agglomerative_merge rle T mb).length : ℤ) ≤ m) := by
  obtain ⟨-, h2, h3⟩ := agg_run rle T mb
  exact ⟨h2, h3⟩

/-- Witness for C6 at `[((0,0,0),1), ((1,1,1),1), ((0,0,0),1)]`, budget 2. -/
theorem C6_witness :
    (agglomerative_merge [((0,0,0), 1), ((1,1,1), 1), ((0,0,0), 1)] 1 (some 2)).length
      ≤ (build_initial_blocks [((0,0,0), 1), ((1,1,1), 1), ((0,0,0), 1)] 1).length ∧
    ((agglomerative_merge [((0,0,0), 1), ((1,1,1), 1), ((0,0,0), 1)] 1
        (some 2)).length : ℤ) ≤ 2 :=
  ⟨(C6_monotonic_reduction [((0,0,0), 1), ((1,1,1), 1), ((0,0,0), 1)] 1 (some 2)).1,
   (C6_monotonic_reduction [((0,0,0), 1), ((1,1,1), 1), ((0,0,0), 1)] 1 (some 2)).2
     2 rfl (by norm_num)⟩

/-- C7 (counterexample): the loop does **not** terminate only through the two
break rules: on the single-entry input the candidate heap is empty from the
start, the loop exits by heap exhaustion (`while heap:` turning false), and
neither break fires. -/
theorem C7_cex_empty_heap_exit :
    mergeReason [((0,0,0), 1)] 5000 none = ExitReason.emptyHeap ∧
    ExitReason.emptyHeap ≠ ExitReason.breakGain ∧
    ExitReason.emptyHeap ≠ ExitReason.breakBudget ∧
    agglomerative_merge [((0,0,0), 1)] 5000 none = [mkBlock 0 0 {(0,0,0)} 1] := by
  decide

/-- C7 (amended): the loop terminates either by exhausting the heap or by one
of the two break rules exactly as claimed: a gain-break leaves the budget
satisfied and performs no merge (the popped candidate is dropped), and a
budget-break happens only with `max_blocks` set, immediately after the merge
that brought the live count within budget. -/
theorem C7_stopping_rules (rle : List RLE) (T : ℤ) (mb : Option ℤ) :
    (mergeReason rle T mb = ExitReason.emptyHeap ∨
     mergeReason rle T mb = ExitReason.breakGain ∨
     mergeReason rle T mb = ExitReason.breakBudget) ∧
    (mergeReason rle T mb = ExitReason.breakGain →
      budgetOK mb
        (mergeLoopR mb (loopFuel (initState rle T)) (initState rle T)).1.count
        = true) ∧
    (mergeReason rle T mb = ExitReason.breakBudget →
      mb.isSome = true ∧
      budgetOK mb
        (mergeLoopR mb (loopFuel (initState rle T)) (initState rle T)).1.count
        = true) ∧
    (∀ fuel s c rest, popMin s.heap = some (c, rest) → ¬ staleAt s.arena c →
      ((-c.negGain ≤ 0) ∧ budgetOK mb s.count = true →
        mergeLoopR mb (fuel + 1) s
          = ({ s with heap := rest }, ExitReason.breakGain)) ∧
      (¬ ((-c.negGain ≤ 0) ∧ budgetOK mb s.count = true) →
        mb.isSome ∧ budgetOK mb (doMerge s c rest).count = true →
        mergeLoopR mb (fuel + 1) s = (doMerge s c rest, ExitReason.breakBudget))) := by
  obtain ⟨h1, -, h3, h4⟩ := mergeReason_props rle T mb
  refine ⟨h1, h3, h4, ?_⟩
  intro fuel s c rest hpop hst
  exact ⟨fun hbrk => mergeLoopR_gain hpop hst hbrk,
    fun hbrk hstop => mergeLoopR_budget hpop hst hbrk hstop⟩

/-- Witness for C7: the exit-reason trichotomy at a concrete run. -/
theorem C7_witness :
    mergeReason [((0,0,0), 1), ((1,1,1), 1)] 1 (some 1) = ExitReason.emptyHeap ∨
    mergeReason [((0,0,0), 1), ((1,1,1), 1)] 1 (some 1) = ExitReason.breakGain ∨
    mergeReason [((0,0,0), 1), ((1,1,1), 1)] 1 (some 1) = ExitReason.breakBudget :=
  (C7_stopping_rules [((0,0,0), 1), ((1,1,1), 1)] 1 (some 1)).1

/-- C8: `heappop` extracts a candidate minimal for the key
`(-gain, merge_id)` — i.e. highest gain first, ties broken by earlier
insertion — and the loop discards a popped candidate without acting on it iff
left is dead, or right is dead, or left's right-neighbor is no longer right;
otherwise it breaks on the stopping rule or merges. -/
theorem C8_pop_order_and_staleness (mb : Option ℤ) :
    (∀ h c rest, popMin h = some (c, rest) →
      c ∈ h ∧ h.Perm (c :: rest) ∧
      ∀ d ∈ h, c.negGain < d.negGain ∨ (c.negGain = d.negGain ∧ c.id ≤ d.id)) ∧
    (∀ (s : MState) fuel c rest, popMin s.heap = some (c, rest) →
      (staleAt s.arena c ↔
        (nodeAt s.arena c.l).alive = false ∨ (nodeAt s.arena c.r).alive = false ∨
          (nodeAt s.arena c.l).right ≠ some c.r) ∧
      (staleAt s.arena c →
        mergeLoopR mb (fuel + 1) s = mergeLoopR mb fuel { s with heap := rest }) ∧
      (¬ staleAt s.arena c →
        mergeLoopR mb (fuel + 1) s
            = ({ s with heap := rest }, ExitReason.breakGain) ∨
        mergeLoopR mb (fuel + 1) s = (doMerge s c rest, ExitReason.breakBudget) ∨
        mergeLoopR mb (fuel + 1) s = mergeLoopR mb fuel (doMerge s c rest))) := by
  refine ⟨fun h c rest hpop =>
      ⟨popMin_mem hpop, popMin_perm hpop, popMin_min hpop⟩,
    fun s fuel c rest hpop => ⟨Iff.rfl,
      fun hst => mergeLoopR_stale hpop hst, ?_⟩⟩
  intro hst
  by_cases hbrk : (-c.negGain ≤ 0) ∧ budgetOK mb s.count = true
  · exact Or.inl (mergeLoopR_gain hpop hst hbrk)
  · by_cases hstop : mb.isSome ∧ budgetOK mb (doMerge s c rest).count = true
    · exact Or.inr (Or.inl (mergeLoopR_budget hpop hst hbrk hstop))
    · exact Or.inr (Or.inr (mergeLoopR_merge hpop hst hbrk hstop))

/-- Witness for C8 on the two-element heap `[⟨3,0,0,1⟩, ⟨-2,1,1,2⟩]`: the
entry with smaller `-gain` is popped first. -/
theorem C8_witness :
    (⟨-2, 1, 1, 2⟩ : Cand) ∈ [(⟨3, 0, 0, 1⟩ : Cand), ⟨-2, 1, 1, 2⟩] ∧
    ([(⟨3, 0, 0, 1⟩ : Cand), ⟨-2, 1, 1, 2⟩]).Perm
      ((⟨-2, 1, 1, 2⟩ : Cand) :: [⟨3, 0, 0, 1⟩]) ∧
    ∀ d ∈ [(⟨3, 0, 0, 1⟩ : Cand), ⟨-2, 1, 1, 2⟩],
      (⟨-2, 1, 1, 2⟩ : Cand).negGain < d.negGain ∨
        ((⟨-2, 1, 1, 2⟩ : Cand).negGain = d.negGain ∧
          (⟨-2, 1, 1, 2⟩ : Cand).id ≤ d.id) :=
  (C8_pop_order_and_staleness none).1 [⟨3, 0, 0, 1⟩, ⟨-2, 1, 1, 2⟩]
    ⟨-2, 1, 1, 2⟩ [⟨3, 0, 0, 1⟩] (by decide)

/-- C9: determinism.  The input/output relation `AggRun` abstracts the only
implementation freedom — the heap's internal layout (`heappop` returns *a*
minimal entry).  The function realizes the relation, and any two outputs the
relation admits for the same input and configuration are equal; hence
repeated runs produce identical block lists, including tie-break order. -/
theorem C9_deterministic (rle : List RLE) (T : ℤ) (mb : Option ℤ) :
    AggRun rle T mb (agglomerative_merge rle T mb) ∧
    ∀ out₁ out₂, AggRun rle T mb out₁ → AggRun rle T mb out₂ → out₁ = out₂ :=
  ⟨agg_AggRun rle T mb, fun _ _ h₁ h₂ => aggRun_unique rle T mb h₁ h₂⟩

/-- Witness for C9 at `[((0,0,0), 1)]`. -/
theorem C9_witness :
    AggRun [((0,0,0), 1)] 5000 none (agglomerative_merge [((0,0,0), 1)] 5000 none) ∧
    agglomerative_merge [((0,0,0), 1)] 5000 none
      = agglomerative_merge [((0,0,0), 1)] 5000 none :=
  ⟨(C9_deterministic [((0,0,0), 1)] 5000 none).1,
   (C9_deterministic [((0,0,0), 1)] 5000 none).2 _ _
     (C9_deterministic [((0,0,0), 1)] 5000 none).1
     (C9_deterministic [((0,0,0), 1)] 5000 none).1⟩

/-- C10: block payloads are immutable.  Throughout the driver loop the payload
(`start`, `end`, `counter`, `total`, `inherited`) of every existing block is
preserved (the loop only appends new blocks and flips `alive`/`left`/`right`
pointers), and each merge step appends exactly one fresh block whose payload
is `merge_blocks(left, right)` while leaving all prior payloads unchanged. -/
theorem C10_payloads_immutable (mb : Option ℤ) (fuel : ℕ) (s : MState)
    (c : Cand) (rest : List Cand) :
    (∀ k, k < s.arena.length →
      coreAt (mergeLoop mb fuel s).arena k = coreAt s.arena k) ∧
    s.arena.length ≤ (mergeLoop mb fuel s).arena.length ∧
    (doMerge s c rest).arena.length = s.arena.length + 1 ∧
    (∀ k, k < s.arena.length →
      coreAt (doMerge s c rest).arena k = coreAt s.arena k) ∧
    coreAt (doMerge s c rest).arena s.arena.length
      = merge_blocks (coreAt s.arena c.l) (coreAt s.arena c.r) := by
  obtain ⟨hlen, hcore⟩ := mergeLoopR_cores mb fuel s
  have harena : (doMerge s c rest).arena = mergeArena s.arena c := rfl
  rw [mergeLoop_eq]
  refine ⟨hcore, hlen, ?_, ?_, ?_⟩
  · rw [harena, mergeArena_length]
  · intro k hk
    rw [harena]
    exact mergeArena_core s.arena c k hk
  · rw [harena]
    exact mergeArena_core_new s.arena c

/-- Witness for C10 at the initial state of `[((0,0,0), 1), ((1,1,1), 1)]`. -/
theorem C10_witness :
    0 < (initState [((0,0,0), 1), ((1,1,1), 1)] 1).arena.length ∧
    coreAt (mergeLoop (some 1) 5
        (initState [((0,0,0), 1), ((1,1,1), 1)] 1)).arena 0
      = coreAt (initState [((0,0,0), 1), ((1,1,1), 1)] 1).arena 0 :=
  ⟨by decide,
   (C10_payloads_immutable (some 1) 5 (initState [((0,0,0), 1), ((1,1,1), 1)] 1)
     ⟨0, 0, 0, 1⟩ []).1 0 (by decide)⟩

end MVP
